import Mathlib

/-!
# Verification of the Companella timing-point generator (`bpm.py`)

Shallow embedding over ℚ of the core grid-reconciliation algorithm of
`src/CompanellaTools/bpm.py`: the monotonic onset matcher
(`find_nearest_onset`), the robust slope estimator
(`robust_slope_s_per_beat`), the phase selector (`choose_best_phase`) and
the beat-by-beat simulation loop of `analyze_mode_a` (from the bpm
fallback at line 281 to the return at line 387; everything before —
audio decoding, onset detection, tempo/anchor seeding — is external per
the specification and enters only through the function arguments).

Python floats are modelled as exact rationals; float literals such as
`1e-6`, `1e-4`, `0.6`, `2.5` become the exact rationals `1/1000000`,
`1/10000`, `3/5`, `5/2`.  `np.isfinite` checks are identically true on ℚ
and noted where they occur.  Python ints are ℤ (loop indices that are
provably non-negative are ℕ).
-/

/- Batteries seals the rational-number operations against unfolding; concrete
runs of the embedding are checked by `decide`, which needs them to reduce. -/
attribute [local semireducible] Rat.add Rat.mul Rat.inv Rat.sub Rat.ofScientific

set_option maxRecDepth 40000

/-- `collections.deque` with `maxlen = cap`: append on the right, evict from
the left when the length would exceed `cap`.  (`bpm.py` lines 312-313 create
`err_q`/`idx_q` with `maxlen=max(8, int(decision_window))`, lines 329-332
append to them.) -/
def dequeAppend {α : Type} (cap : ℕ) (q : List α) (x : α) : List α :=
  let q' := q ++ [x]
  q'.drop (q'.length - cap)

/-- The deque capacity used for both rolling queues:
`maxlen = max(8, int(decision_window))` (line 312). -/
def windowCap (decision_window : ℤ) : ℕ :=
  (max 8 decision_window).toNat

/-- `np.median` on a nonempty array: sort ascending, take the middle element
(odd length) or the mean of the two middle elements (even length).
`np.median` of an *empty* array is NaN; every use in scope is on a nonempty
array (the classifier runs only once `len(err_q) >= min_matches` with
`min_matches ≥ 1` in every theorem below that evaluates it, and
`choose_best_phase` computes a median only when `matches > 0`), so the
value returned here for `[]` is never relied upon. -/
def medianQ (l : List ℚ) : ℚ :=
  let s := List.insertionSort (· ≤ ·) l
  if l.length % 2 = 1 then s.getD (l.length / 2) 0
  else (s.getD (l.length / 2 - 1) 0 + s.getD (l.length / 2) 0) / 2

/-- `robust_slope_s_per_beat` (lines 170-184): slope of error vs beat index,
both centred by their medians; 0 for fewer than 6 samples or a degenerate
denominator (`<= 1e-12`).  In the program the two arrays always have equal
length (they come from the two lockstep deques), so `zip` loses nothing. -/
def robust_slope_s_per_beat (beat_indices errors_s : List ℚ) : ℚ :=
  if beat_indices.length < 6 then 0
  else
    let x0 := beat_indices.map (fun q => q - medianQ beat_indices)
    let y0 := errors_s.map (fun q => q - medianQ errors_s)
    let denom := (x0.map (fun q => q * q)).sum
    if denom ≤ 1 / 1000000000000 then 0
    else ((x0.zip y0).map (fun p => p.1 * p.2)).sum / denom

/-- Structural helper for `advanceHint`: `fuel` bounds the remaining
iterations; it is called with `fuel = length - i`, which the guard
`i + 1 < length` never exhausts, so this is exactly the source's loop. -/
def advanceHintAux (onset_times : List ℚ) (t window_s : ℚ) : ℕ → ℕ → ℕ
  | 0, i => i
  | fuel + 1, i =>
    if i + 1 < onset_times.length ∧ onset_times.getD i 0 < t - window_s then
      advanceHintAux onset_times t window_s fuel (i + 1)
    else i

/-- The hint-advance loop of `find_nearest_onset` (line 153):
`while i + 1 < n and onset_times[i] < t - window_s: i += 1`.
See `advanceHint_eq` for the loop-shaped unfolding. -/
def advanceHint (onset_times : List ℚ) (t window_s : ℚ) (i : ℕ) : ℕ :=
  advanceHintAux onset_times t window_s (onset_times.length - i) i

/-- Python's `min(candidates, key=lambda x: x[0])`: the first element whose
key component is minimal (later elements replace only on a strictly smaller
key). -/
def pickBest (cands : List (ℚ × ℕ)) : Option (ℚ × ℕ) :=
  cands.foldl (fun acc c =>
    match acc with
    | none => some c
    | some b => if c.1 < b.1 then some c else some b) none

/-- The neighbourhood `(i-1, i, i+1, i+2)` clamped to `0 <= j < n`
(lines 157-158). -/
def candIdxs (n i : ℕ) : List ℕ :=
  (([(i : ℤ) - 1, (i : ℤ), (i : ℤ) + 1, (i : ℤ) + 2].filter
    (fun j => decide (0 ≤ j ∧ j < (n : ℤ)))).map Int.toNat)

/-- The candidate filter of lines 158-161: keep index `j` with its distance
`dt = |onset_times[j] - t|` when `dt <= window_s`. -/
def candF (onset_times : List ℚ) (t window_s : ℚ) (j : ℕ) : Option (ℚ × ℕ) :=
  let dt := |onset_times.getD j 0 - t|
  if dt ≤ window_s then some (dt, j) else none

/-- `find_nearest_onset` (lines 142-167).  The hint is threaded as a natural
number (it starts at 0 and the function never returns a negative index, so
the `max(0, idx_hint)` clamp of line 152 is the identity).  Returns the
matched timestamp (or none) and the updated hint. -/
def find_nearest_onset (onset_times : List ℚ) (idx_hint : ℕ) (t window_s : ℚ) :
    Option ℚ × ℕ :=
  if onset_times.length = 0 then (none, idx_hint)
  else
    let i := advanceHint onset_times t window_s idx_hint
    let cands := (candIdxs onset_times.length i).filterMap
      (candF onset_times t window_s)
    match pickBest cands with
    | none => (none, i)
    | some best => (some (onset_times.getD best.2 0), best.2)

/-- Modelled from the spec's words ("each returned match equals the
brute-force nearest onset within the window"): the onset of minimum absolute
distance to `t` among *all* onsets within the window — the same candidate
filter applied to *every* index, not only the neighbourhood of the hint —
the earliest such onset on exact ties, `none` when no onset lies within the
window.  Used only as the reference side of the matcher-correctness claim. -/
def bruteNearest (onset_times : List ℚ) (t window_s : ℚ) : Option ℚ :=
  let cands := (List.range onset_times.length).filterMap
    (candF onset_times t window_s)
  (pickBest cands).map (fun best => onset_times.getD best.2 0)

/-- A sequence of matcher calls with the hint threaded from call to call,
as the simulation loop and the phase selector issue them. -/
def matchRun (onset_times : List ℚ) (window_s : ℚ) : ℕ → List ℚ → List (Option ℚ × ℕ)
  | _, [] => []
  | h, q :: qs =>
    let r := find_nearest_onset onset_times h q window_s
    r :: matchRun onset_times window_s r.2 qs

/-- Hint invariant carried across a monotone query sequence: every onset at
an index two or more below the hint already lies strictly left of the
window.  (Established by the advance loop and preserved as queries grow.) -/
def LeftOut (onset_times : List ℚ) (window_s t : ℚ) (h : ℕ) : Prop :=
  ∀ j : ℕ, j + 2 ≤ h → onset_times.getD j 0 < t - window_s

/-- Hint invariant for monotonicity of the threaded hint (no spacing
assumption): either the hint is 0, or the onset just below it is strictly
left of the window, or it lies at or before the query and strictly farther
from it than the onset at the hint. -/
def HintInv (onset_times : List ℚ) (window_s t : ℚ) (h : ℕ) : Prop :=
  onset_times = [] ∨
    (h < onset_times.length ∧
      (h = 0 ∨ onset_times.getD (h - 1) 0 < t - window_s ∨
        (onset_times.getD (h - 1) 0 ≤ t ∧
          |onset_times.getD h 0 - t| < t - onset_times.getD (h - 1) 0)))

/-- The configuration options of `analyze_mode_a` consumed by the core
(lines 239-257); `float` options are ℚ, `int` options are ℤ exactly as the
CLI delivers them. -/
structure Cfg where
  match_window_ms : ℚ
  decision_window : ℤ
  min_matches : ℤ
  persist : ℤ
  offset_threshold_ms : ℚ
  drift_slope_ms_per_beat : ℚ
  bpm_min_change : ℚ
  phase_divisions : ℤ
  phase_search_seconds : ℚ
  min_gap_ms : ℚ
  max_points : ℤ

/-- `window_s = match_window_ms / 1000.0` (line 287). -/
def Cfg.window_s (c : Cfg) : ℚ := c.match_window_ms / 1000

/-- Rolling-queue capacity of this configuration (line 312). -/
def Cfg.cap (c : Cfg) : ℕ := windowCap c.decision_window

/-- The anchor snap of lines 290-293: move `t0` to the closest onset
(`np.argmin` returns the first index of minimal distance) when within
`window_s * 2.5`. -/
def snapAnchor (onset_times : List ℚ) (t0 window_s : ℚ) : ℚ :=
  if onset_times.length = 0 then t0
  else
    match pickBest ((List.range onset_times.length).map
        (fun j => (|onset_times.getD j 0 - t0|, j))) with
    | none => t0
    | some b =>
      if |onset_times.getD b.2 0 - t0| ≤ window_s * (5 / 2) then
        onset_times.getD b.2 0
      else t0

/-- One phase candidate's scoring loop (lines 213-224): beats
`t = cand_t0 + beat_idx * interval` for `beat_idx = 0, 1, ...` while
`t <= cand_t0 + search_seconds`, i.e. while `beat_idx * interval <=
search_seconds`; since `interval > 1e-6 > 0` the loop runs exactly for
`beat_idx = 0 .. ⌊search_seconds / interval⌋`.  Threads the onset hint and
accumulates the match count and signed errors. -/
def phaseScore (ot : List ℚ) (cand_t0 interval match_window_s search_seconds : ℚ) :
    ℕ × List ℚ :=
  let nBeats : ℕ := (⌊search_seconds / interval⌋).toNat + 1
  let r := (List.range nBeats).foldl
    (fun (st : ℕ × ℕ × List ℚ) bi =>
      let t := cand_t0 + (bi : ℚ) * interval
      match find_nearest_onset ot st.1 t match_window_s with
      | (some m, h') => (h', st.2.1 + 1, st.2.2 ++ [m - t])
      | (none, h') => (h', st.2.1, st.2.2)) (0, 0, [])
  (r.2.1, r.2.2)

/-- `choose_best_phase` (lines 187-236).  The running best is the Python
sentinel pair `best_matches = -1`, `best_med_abs_err = inf`: the infinite
sentinel is never compared, because `med_abs_err < best_med_abs_err` is
reached only when `matches == best_matches`, and after the `matches == 0`
skip every scored candidate has `matches >= 1 > -1`, so the first scored
candidate always wins on the count; the sentinel's second component is
therefore represented by `0`. -/
def choose_best_phase (t0 interval : ℚ) (onset_times : List ℚ)
    (match_window_s search_seconds_in : ℚ) (phase_divisions_in : ℤ) : ℚ :=
  if onset_times.length = 0 ∨ interval ≤ 1 / 1000000 then t0
  else
    let D : ℤ := max 1 phase_divisions_in
    let search_seconds : ℚ := max 3 search_seconds_in
    let end_t := t0 + search_seconds
    let ot := onset_times.filter
      (fun o => decide (max 0 (t0 - 1 / 2) ≤ o ∧ o ≤ end_t + 1 / 2))
    if ot.length = 0 then t0
    else
      ((List.range D.toNat).foldl
        (fun (best : ℤ × ℚ × ℚ) k =>
          let cand_t0 := t0 + ((k : ℚ) / (D : ℚ)) * interval
          let sc := phaseScore ot cand_t0 interval match_window_s search_seconds
          if sc.1 = 0 then best
          else
            let med_abs_err := medianQ (sc.2.map (fun e => |e|))
            if (sc.1 : ℤ) > best.1 ∨ ((sc.1 : ℤ) = best.1 ∧ med_abs_err < best.2.1)
            then ((sc.1 : ℤ), med_abs_err, cand_t0)
            else best)
        (-1, 0, t0)).2.2

/-- The mutable state of the simulation loop of `analyze_mode_a`
(lines 308-324): the current grid (`bpm`, `interval`, `t0`), the output
list and anti-spam low-water mark, the two rolling deques, the matcher
hint, the two persistence counters, and the beat position. -/
structure LoopState where
  bpm : ℚ
  interval : ℚ
  t0 : ℚ
  points : List (ℚ × ℚ)
  last_point_time : ℚ
  err_q : List ℚ
  idx_q : List ℤ
  onset_idx_hint : ℕ
  eval_streak_offset : ℕ
  eval_streak_drift : ℕ
  beat_idx : ℕ
  t : ℚ
deriving Repr, DecidableEq

/-- `med_e_ms = float(np.median(errors)) * 1000.0` (lines 338, 341). -/
def medMs (s : LoopState) : ℚ := medianQ s.err_q * 1000

/-- `slope = robust_slope_s_per_beat(indices, errors)` (line 339); the
integer beat indices become floats (`np.asarray(..., dtype=float)`). -/
def slopeOf (s : LoopState) : ℚ :=
  robust_slope_s_per_beat (s.idx_q.map (fun z : ℤ => (z : ℚ))) s.err_q

/-- `slope_ms = slope * 1000.0` (line 342). -/
def slopeMs (s : LoopState) : ℚ := slopeOf s * 1000

/-- `is_drift = abs(slope_ms) >= float(drift_slope_ms_per_beat)` (line 344). -/
def isDrift (cfg : Cfg) (s : LoopState) : Prop :=
  cfg.drift_slope_ms_per_beat ≤ |slopeMs s|

/-- `is_jump = abs(med_e_ms) >= offset_threshold_ms and
abs(slope_ms) < drift_slope_ms_per_beat * 0.6` (lines 345-347). -/
def isJump (cfg : Cfg) (s : LoopState) : Prop :=
  cfg.offset_threshold_ms ≤ |medMs s| ∧
    |slopeMs s| < cfg.drift_slope_ms_per_beat * (3 / 5)

instance (cfg : Cfg) (s : LoopState) : Decidable (isDrift cfg s) := by
  unfold isDrift; infer_instance

instance (cfg : Cfg) (s : LoopState) : Decidable (isJump cfg s) := by
  unfold isJump; infer_instance

/-- `eval_streak_drift = eval_streak_drift + 1 if is_drift else 0`
(line 349), evaluated on the post-match state. -/
def nextDrift (cfg : Cfg) (s : LoopState) : ℕ :=
  if isDrift cfg s then s.eval_streak_drift + 1 else 0

/-- `eval_streak_offset = eval_streak_offset + 1 if is_jump else 0`
(line 350). -/
def nextOffset (cfg : Cfg) (s : LoopState) : ℕ :=
  if isJump cfg s then s.eval_streak_offset + 1 else 0

/-- `anchor_time = matched if matched is not None else (t + med_e)`
(lines 357, 372). -/
def anchorOf (s : LoopState) (matched : Option ℚ) : ℚ :=
  match matched with
  | some m => m
  | none => s.t + medianQ s.err_q

/-- The anti-spam minimum-gap check
`(anchor_time - last_point_time) * 1000.0 >= min_gap_ms`
(lines 358, 373) — the same check in the drift and the jump branch. -/
def gapOK (cfg : Cfg) (s : LoopState) (anchor : ℚ) : Prop :=
  cfg.min_gap_ms ≤ (anchor - s.last_point_time) * 1000

instance (cfg : Cfg) (s : LoopState) (anchor : ℚ) : Decidable (gapOK cfg s anchor) := by
  unfold gapOK; infer_instance

/-- Lines 327-332: query the matcher at the current grid time, update the
hint, and on a match append the signed error and the beat index to the two
rolling deques. -/
def afterMatch (cfg : Cfg) (onset_times : List ℚ) (s : LoopState) : LoopState :=
  let r := find_nearest_onset onset_times s.onset_idx_hint s.t cfg.window_s
  { s with
    onset_idx_hint := r.2
    err_q := match r.1 with
      | some m => dequeAppend cfg.cap s.err_q (m - s.t)
      | none => s.err_q
    idx_q := match r.1 with
      | some _ => dequeAppend cfg.cap s.idx_q (s.beat_idx : ℤ)
      | none => s.idx_q }

/-- `new_interval = interval + slope` (line 353): continuous extrapolation
of the beat interval. -/
def newIntervalOf (s : LoopState) : ℚ := s.interval + slopeOf s

/-- `new_bpm = 60.0 / new_interval if new_interval > 1e-4 else bpm`
(line 354). -/
def newBpmOf (s : LoopState) : ℚ :=
  if 1 / 10000 < newIntervalOf s then 60 / newIntervalOf s else s.bpm

/-- Lines 334-382: the classifier/emitter, run on the post-match state
`s1`.  It evaluates only when `len(err_q) >= min_matches`; it updates the
two persistence counters, then acts on sustained drift
(`eval_streak_drift >= persist`, checked first) or else on sustained jump
(`elif eval_streak_offset >= persist`).  `np.isfinite(new_bpm)` (line 356)
is identically true over ℚ (`new_bpm` is `60/new_interval` with
`new_interval > 1e-4`, or the old finite `bpm`). -/
def classify (cfg : Cfg) (matched : Option ℚ) (s1 : LoopState) : LoopState :=
  if cfg.min_matches ≤ (s1.err_q.length : ℤ) then
    let s2 := { s1 with
      eval_streak_drift := nextDrift cfg s1
      eval_streak_offset := nextOffset cfg s1 }
    if cfg.persist ≤ (nextDrift cfg s1 : ℤ) then
      let new_bpm := newBpmOf s1
      if cfg.bpm_min_change ≤ |new_bpm - s1.bpm| then
        let anchor := anchorOf s1 matched
        if gapOK cfg s1 anchor then
          { s2 with
            bpm := new_bpm
            interval := 60 / new_bpm
            t0 := anchor - (s1.beat_idx : ℚ) * (60 / new_bpm)
            points := s2.points ++ [(anchor, new_bpm)]
            last_point_time := anchor
            err_q := []
            idx_q := []
            eval_streak_drift := 0
            eval_streak_offset := 0 }
        else s2
      else s2
    else if cfg.persist ≤ (nextOffset cfg s1 : ℤ) then
      let anchor := anchorOf s1 matched
      if gapOK cfg s1 anchor then
        { s2 with
          t0 := anchor - (s1.beat_idx : ℚ) * s1.interval
          points := s2.points ++ [(anchor, s1.bpm)]
          last_point_time := anchor
          err_q := []
          idx_q := []
          eval_streak_drift := 0
          eval_streak_offset := 0 }
      else s2
    else s2
  else s1

/-- Lines 384-385: `beat_idx += 1; t = t0 + beat_idx * interval` (with the
possibly-updated `t0`/`interval`). -/
def advanceBeat (s : LoopState) : LoopState :=
  { s with beat_idx := s.beat_idx + 1, t := s.t0 + ((s.beat_idx : ℚ) + 1) * s.interval }

/-- One iteration of the `while` body (lines 326-385). -/
def stepBeat (cfg : Cfg) (onset_times : List ℚ) (s : LoopState) : LoopState :=
  let s1 := afterMatch cfg onset_times s
  let matched := (find_nearest_onset onset_times s.onset_idx_hint s.t cfg.window_s).1
  advanceBeat (classify cfg matched s1)

/-- The simulation loop `while t <= duration and len(points) < max_points`
(line 326), with explicit fuel: each unit of fuel permits one iteration, so
the states reached at every fuel value are exactly the loop's intermediate
states, and any sufficiently large fuel gives the loop's exit state. -/
def runLoop (cfg : Cfg) (onset_times : List ℚ) (duration : ℚ) :
    ℕ → LoopState → LoopState
  | 0, s => s
  | fuel + 1, s =>
    if s.t ≤ duration ∧ (s.points.length : ℤ) < cfg.max_points then
      runLoop cfg onset_times duration fuel (stepBeat cfg onset_times s)
    else s

/-- The initial loop state of `analyze_mode_a` (lines 281-324): the 120-BPM
fallback (`np.isfinite(bpm)` is identically true over ℚ, so only
`bpm <= 1e-6` triggers it), the one-shot anchor snap, the phase selection,
and the first timing point.  The initial `while t < 0` skip of lines
322-324 advances `beat_idx` to the smallest count whose grid time is `>= 0`,
which for `t0 < 0` and `interval > 0` is `⌈-t0 / interval⌉`. -/
def initState (onset_times : List ℚ) (bpm_in t0_in : ℚ) (cfg : Cfg) : LoopState :=
  let bpm := if bpm_in ≤ 1 / 1000000 then 120 else bpm_in
  let interval := 60 / bpm
  let t0a := snapAnchor onset_times t0_in cfg.window_s
  let t0b := choose_best_phase t0a interval onset_times cfg.window_s
    cfg.phase_search_seconds cfg.phase_divisions
  let k0 : ℕ := if 0 ≤ t0b then 0 else (⌈-t0b / interval⌉).toNat
  { bpm := bpm
    interval := interval
    t0 := t0b
    points := [(t0b, bpm)]
    last_point_time := t0b
    err_q := []
    idx_q := []
    onset_idx_hint := 0
    eval_streak_offset := 0
    eval_streak_drift := 0
    beat_idx := k0
    t := t0b + (k0 : ℚ) * interval }

/-- The core of `analyze_mode_a` (lines 281-387), starting from the
externally seeded tempo estimate `bpm_in` and anchor estimate `t0_in`.
Returns the final loop state; the program returns `(points, bpm)` from it. -/
def analyzeCore (onset_times : List ℚ) (bpm_in t0_in duration : ℚ)
    (cfg : Cfg) (fuel : ℕ) : LoopState :=
  runLoop cfg onset_times duration fuel (initState onset_times bpm_in t0_in cfg)

/-- The CLI defaults of `parse_arguments` (lines 36-77), used as concrete
instantiation points. -/
def cfgDefault : Cfg :=
  { match_window_ms := 40
    decision_window := 24
    min_matches := 14
    persist := 8
    offset_threshold_ms := 18
    drift_slope_ms_per_beat := 6 / 5
    bpm_min_change := 7 / 20
    phase_divisions := 4
    phase_search_seconds := 18
    min_gap_ms := 600
    max_points := 200 }

lemma dequeAppend_length {α : Type} (cap : ℕ) (q : List α) (x : α) :
    (dequeAppend cap q x).length = min (q.length + 1) cap := by
  simp [dequeAppend]
  omega

lemma windowCap_pos (dw : ℤ) : 0 < windowCap dw := by
  unfold windowCap
  omega

/-- Onsets used for the rolling-window capacity counterexample: a perfect
120-BPM grid. -/
def onsC2 : List ℚ := [0, 1 / 2, 1, 3 / 2, 2, 5 / 2]

/-- Configuration with `decision_window = 4` (below the hard-coded floor of
8) and `min_matches` large enough that the classifier never runs. -/
def cfgC2 : Cfg :=
  { cfgDefault with
    match_window_ms := 100
    decision_window := 4
    min_matches := 100
    phase_divisions := 1
    phase_search_seconds := 3 }

/-- C2, counterexample: with `decision_window = 4` the rolling error window
reaches 5 entries after five matched beats — its capacity is
`max(8, decision_window) = 8`, not the configured `decision_window`;
a FIFO of capacity 4 would have evicted down to 4 entries. -/
theorem rolling_window_capacity_cex :
    cfgC2.decision_window = 4 ∧
    (analyzeCore onsC2 120 0 (11 / 5) cfgC2 6).err_q.length = 5 ∧
    ¬(analyzeCore onsC2 120 0 (11 / 5) cfgC2 6).err_q.length ≤ 4 := by
  refine ⟨rfl, ?_, by decide⟩
  rfl

/-- C2 (amended): the rolling window of `(beatIndex, error)` entries is a
bounded FIFO whose capacity is `max(8, decision_window)` for every
configuration value of `decision_window`: appending below capacity keeps
every entry, appending at capacity evicts exactly the oldest entry, and the
length never exceeds the capacity. -/
theorem rolling_window_fifo {α : Type} (dw : ℤ) (q : List α) (x : α) :
    (q.length ≤ windowCap dw →
      (dequeAppend (windowCap dw) q x).length ≤ windowCap dw)
    ∧ (q.length < windowCap dw → dequeAppend (windowCap dw) q x = q ++ [x])
    ∧ (q.length = windowCap dw → dequeAppend (windowCap dw) q x = q.tail ++ [x]) := by
  refine ⟨fun h => ?_, fun h => ?_, fun h => ?_⟩
  · rw [dequeAppend_length]
    omega
  · have h0 : (q ++ [x]).length - windowCap dw = 0 := by
      simp
      omega
    simp only [dequeAppend, h0, List.drop_zero]
  · have hq : 1 ≤ q.length := by
      have := windowCap_pos dw
      omega
    have hdrop : (q ++ [x]).length - windowCap dw = 1 := by
      simp
      omega
    simp only [dequeAppend, hdrop]
    rw [List.drop_append_of_le_length hq, List.drop_one]

/-- Witness for C2's amended theorem at `decision_window = 24`, a full queue
of 24 entries: the append evicts exactly the head. -/
theorem rolling_window_fifo_witness :
    (List.replicate 24 (0 : ℚ)).length = windowCap 24 ∧
    dequeAppend (windowCap 24) (List.replicate 24 (0 : ℚ)) 1 =
      (List.replicate 24 (0 : ℚ)).tail ++ [1] :=
  ⟨by decide, (rolling_window_fifo 24 (List.replicate 24 (0 : ℚ)) 1).2.2 (by decide)⟩

lemma afterMatch_queues (cfg : Cfg) (onset_times : List ℚ) (s : LoopState)
    (h : s.err_q.length = s.idx_q.length) :
    (afterMatch cfg onset_times s).err_q.length =
      (afterMatch cfg onset_times s).idx_q.length := by
  unfold afterMatch
  cases hr : (find_nearest_onset onset_times s.onset_idx_hint s.t cfg.window_s).1 <;>
    simp [hr, dequeAppend_length, h]

lemma classify_queues (cfg : Cfg) (matched : Option ℚ) (s1 : LoopState)
    (h : s1.err_q.length = s1.idx_q.length) :
    (classify cfg matched s1).err_q.length =
      (classify cfg matched s1).idx_q.length := by
  unfold classify
  by_cases h1 : cfg.min_matches ≤ (s1.err_q.length : ℤ)
  · rw [if_pos h1]
    by_cases h2 : cfg.persist ≤ (nextDrift cfg s1 : ℤ)
    · rw [if_pos h2]
      by_cases h3 : cfg.bpm_min_change ≤ |newBpmOf s1 - s1.bpm|
      · rw [if_pos h3]
        by_cases h4 : gapOK cfg s1 (anchorOf s1 matched)
        · rw [if_pos h4]; rfl
        · rw [if_neg h4]; exact h
      · rw [if_neg h3]; exact h
    · rw [if_neg h2]
      by_cases h5 : cfg.persist ≤ (nextOffset cfg s1 : ℤ)
      · rw [if_pos h5]
        by_cases h4 : gapOK cfg s1 (anchorOf s1 matched)
        · rw [if_pos h4]; rfl
        · rw [if_neg h4]; exact h
      · rw [if_neg h5]; exact h
  · rw [if_neg h1]; exact h

lemma stepBeat_queues (cfg : Cfg) (onset_times : List ℚ) (s : LoopState)
    (h : s.err_q.length = s.idx_q.length) :
    (stepBeat cfg onset_times s).err_q.length =
      (stepBeat cfg onset_times s).idx_q.length := by
  unfold stepBeat advanceBeat
  exact classify_queues _ _ _ (afterMatch_queues _ _ _ h)

lemma runLoop_queues (cfg : Cfg) (onset_times : List ℚ) (duration : ℚ) :
    ∀ (fuel : ℕ) (s : LoopState), s.err_q.length = s.idx_q.length →
      (runLoop cfg onset_times duration fuel s).err_q.length =
        (runLoop cfg onset_times duration fuel s).idx_q.length := by
  intro fuel
  induction fuel with
  | zero => intro s h; exact h
  | succ n ih =>
    intro s h
    unfold runLoop
    split
    · exact ih _ (stepBeat_queues _ _ _ h)
    · exact h

/-- C10: the error deque and the beat-index deque stay in lockstep: any state
with equally long deques steps to a state with equally long deques (a value
is appended to both exactly when the beat matched an onset, both are cleared
together on every emission, and both have the same capacity), and the state
after any number of loop iterations of the core — they start empty together
— has equally long deques, so every stored error is paired with its beat
index. -/
theorem queues_lockstep (cfg : Cfg) (onset_times : List ℚ) :
    (∀ s : LoopState, s.err_q.length = s.idx_q.length →
      (stepBeat cfg onset_times s).err_q.length =
        (stepBeat cfg onset_times s).idx_q.length)
    ∧ ∀ (bpm_in t0_in duration : ℚ) (fuel : ℕ),
        (analyzeCore onset_times bpm_in t0_in duration cfg fuel).err_q.length =
          (analyzeCore onset_times bpm_in t0_in duration cfg fuel).idx_q.length := by
  refine ⟨fun s h => stepBeat_queues _ _ _ h, fun bpm_in t0_in duration fuel => ?_⟩
  unfold analyzeCore
  exact runLoop_queues _ _ _ _ _ rfl

/-- Witness for C10 at a concrete state with one matched pair in each deque. -/
theorem queues_lockstep_witness :
    (stepBeat cfgDefault [1, 2]
      { bpm := 120, interval := 1 / 2, t0 := 0, points := [(0, 120)],
        last_point_time := 0, err_q := [1 / 100], idx_q := [3],
        onset_idx_hint := 0, eval_streak_offset := 0, eval_streak_drift := 0,
        beat_idx := 4, t := 2 }).err_q.length =
    (stepBeat cfgDefault [1, 2]
      { bpm := 120, interval := 1 / 2, t0 := 0, points := [(0, 120)],
        last_point_time := 0, err_q := [1 / 100], idx_q := [3],
        onset_idx_hint := 0, eval_streak_offset := 0, eval_streak_drift := 0,
        beat_idx := 4, t := 2 }).idx_q.length :=
  (queues_lockstep cfgDefault [1, 2]).1 _ rfl

lemma isJump_not_isDrift (cfg : Cfg) (s1 : LoopState) (hj : isJump cfg s1) :
    ¬ isDrift cfg s1 := by
  obtain ⟨_, hlt⟩ := hj
  intro hdr
  unfold isDrift at hdr
  have h0 : (0 : ℚ) ≤ |slopeMs s1| := abs_nonneg _
  linarith

/-- C3: on a beat of the simulation loop where (after the window update)
the classifier runs (`min_matches` reached), the jump condition holds, and
its persistence counter reaches `persist` (which, for `persist ≥ 1`, forces
the drift counter to 0, so the drift action is not taken): if the same
anti-spam anchor/gap check as for drift (`gapOK`) succeeds, a timing point
is appended whose bpm is the *current* bpm — only the anchor `t0` is
recomputed — and then the rolling window and both persistence counters are
cleared. -/
theorem sustained_jump_emits_phase_correction (cfg : Cfg) (onset_times : List ℚ)
    (s : LoopState)
    (hp : 1 ≤ cfg.persist)
    (hlen : cfg.min_matches ≤ ((afterMatch cfg onset_times s).err_q.length : ℤ))
    (hjump : isJump cfg (afterMatch cfg onset_times s))
    (hcount : cfg.persist ≤ ((afterMatch cfg onset_times s).eval_streak_offset : ℤ) + 1)
    (hgap : gapOK cfg (afterMatch cfg onset_times s)
      (anchorOf (afterMatch cfg onset_times s)
        (find_nearest_onset onset_times s.onset_idx_hint s.t cfg.window_s).1)) :
    (stepBeat cfg onset_times s).points =
      s.points ++ [(anchorOf (afterMatch cfg onset_times s)
        (find_nearest_onset onset_times s.onset_idx_hint s.t cfg.window_s).1, s.bpm)]
    ∧ (stepBeat cfg onset_times s).bpm = s.bpm
    ∧ (stepBeat cfg onset_times s).interval = s.interval
    ∧ (stepBeat cfg onset_times s).t0 =
        anchorOf (afterMatch cfg onset_times s)
          (find_nearest_onset onset_times s.onset_idx_hint s.t cfg.window_s).1 -
          (s.beat_idx : ℚ) * s.interval
    ∧ (stepBeat cfg onset_times s).last_point_time =
        anchorOf (afterMatch cfg onset_times s)
          (find_nearest_onset onset_times s.onset_idx_hint s.t cfg.window_s).1
    ∧ (stepBeat cfg onset_times s).err_q = []
    ∧ (stepBeat cfg onset_times s).idx_q = []
    ∧ (stepBeat cfg onset_times s).eval_streak_drift = 0
    ∧ (stepBeat cfg onset_times s).eval_streak_offset = 0 := by
  have hnd : ¬ isDrift cfg (afterMatch cfg onset_times s) :=
    isJump_not_isDrift _ _ hjump
  have hnd0 : nextDrift cfg (afterMatch cfg onset_times s) = 0 := by
    unfold nextDrift
    rw [if_neg hnd]
  have hno : nextOffset cfg (afterMatch cfg onset_times s) =
      (afterMatch cfg onset_times s).eval_streak_offset + 1 := by
    unfold nextOffset
    rw [if_pos hjump]
  simp only [stepBeat, classify]
  rw [if_pos hlen, hnd0, hno]
  rw [if_neg (show ¬ cfg.persist ≤ (((0 : ℕ) : ℤ)) by push_cast; omega)]
  rw [if_pos (show cfg.persist ≤
    (((afterMatch cfg onset_times s).eval_streak_offset + 1 : ℕ) : ℤ) by
      push_cast; omega)]
  rw [if_pos hgap]
  exact ⟨rfl, rfl, rfl, rfl, rfl, rfl, rfl, rfl, rfl⟩

/-- The concrete loop state used to witness C3: one matched beat away from a
sustained jump. -/
def sJump : LoopState :=
  { bpm := 60, interval := 1, t0 := 0, points := [(0, 60)],
    last_point_time := 0, err_q := [], idx_q := [], onset_idx_hint := 0,
    eval_streak_offset := 0, eval_streak_drift := 0, beat_idx := 1, t := 1 }

/-- Configuration used to witness C3 and C7: immediate persistence and a
single required match. -/
def cfgJump : Cfg := { cfgDefault with persist := 1, min_matches := 1 }

/-- Witness for C3 at a concrete state: the onset at 1.03 s is matched at
grid time 1 s (error 30 ms ≥ 18 ms, slope 0), the jump streak reaches
`persist = 1`, the gap check passes, and a phase-only point is emitted. -/
theorem sustained_jump_witness :
    (stepBeat cfgJump [103 / 100] sJump).points =
      sJump.points ++ [(anchorOf (afterMatch cfgJump [103 / 100] sJump)
        (find_nearest_onset [103 / 100] sJump.onset_idx_hint sJump.t
          cfgJump.window_s).1, sJump.bpm)] :=
  (sustained_jump_emits_phase_correction cfgJump [103 / 100] sJump
    (by decide) (by decide) (by decide) (by decide) (by decide)).1

/-- C7: on a beat where the classifier runs, a persistence threshold (drift
or jump) is met, but the anti-spam minimum-gap check fails, the step appends
no timing point, leaves the grid (`bpm`, `interval`, `t0`) and the low-water
mark unmutated, retains the rolling window exactly as the match phase left
it, and leaves the persistence counters at their freshly updated values —
the counter that met its threshold is positive, not reset to 0. -/
theorem failed_gap_check_preserves_state (cfg : Cfg) (onset_times : List ℚ)
    (s : LoopState)
    (hp : 1 ≤ cfg.persist)
    (hlen : cfg.min_matches ≤ ((afterMatch cfg onset_times s).err_q.length : ℤ))
    (hmet : cfg.persist ≤ ((nextDrift cfg (afterMatch cfg onset_times s) : ℕ) : ℤ) ∨
      cfg.persist ≤ ((nextOffset cfg (afterMatch cfg onset_times s) : ℕ) : ℤ))
    (hgap : ¬ gapOK cfg (afterMatch cfg onset_times s)
      (anchorOf (afterMatch cfg onset_times s)
        (find_nearest_onset onset_times s.onset_idx_hint s.t cfg.window_s).1)) :
    (stepBeat cfg onset_times s).points = s.points
    ∧ (stepBeat cfg onset_times s).bpm = s.bpm
    ∧ (stepBeat cfg onset_times s).interval = s.interval
    ∧ (stepBeat cfg onset_times s).t0 = s.t0
    ∧ (stepBeat cfg onset_times s).last_point_time = s.last_point_time
    ∧ (stepBeat cfg onset_times s).err_q = (afterMatch cfg onset_times s).err_q
    ∧ (stepBeat cfg onset_times s).idx_q = (afterMatch cfg onset_times s).idx_q
    ∧ (stepBeat cfg onset_times s).eval_streak_drift =
        nextDrift cfg (afterMatch cfg onset_times s)
    ∧ (stepBeat cfg onset_times s).eval_streak_offset =
        nextOffset cfg (afterMatch cfg onset_times s)
    ∧ (0 < nextDrift cfg (afterMatch cfg onset_times s) ∨
        0 < nextOffset cfg (afterMatch cfg onset_times s)) := by
  simp only [stepBeat, classify]
  rw [if_pos hlen]
  rcases hmet with hd | ho
  · rw [if_pos hd]
    by_cases h3 : cfg.bpm_min_change ≤
        |newBpmOf (afterMatch cfg onset_times s) - (afterMatch cfg onset_times s).bpm|
    · rw [if_pos h3, if_neg hgap]
      refine ⟨rfl, rfl, rfl, rfl, rfl, rfl, rfl, rfl, rfl, Or.inl ?_⟩
      omega
    · rw [if_neg h3]
      refine ⟨rfl, rfl, rfl, rfl, rfl, rfl, rfl, rfl, rfl, Or.inl ?_⟩
      omega
  · have hj : isJump cfg (afterMatch cfg onset_times s) := by
      by_contra hnj
      have : nextOffset cfg (afterMatch cfg onset_times s) = 0 := by
        unfold nextOffset
        rw [if_neg hnj]
      omega
    have hnd0 : nextDrift cfg (afterMatch cfg onset_times s) = 0 := by
      unfold nextDrift
      rw [if_neg (isJump_not_isDrift _ _ hj)]
    rw [hnd0]
    rw [if_neg (show ¬ cfg.persist ≤ (((0 : ℕ) : ℤ)) by push_cast; omega)]
    rw [if_pos ho, if_neg hgap]
    refine ⟨rfl, rfl, rfl, rfl, rfl, rfl, rfl, rfl, rfl, Or.inr ?_⟩
    omega

/-- The concrete loop state used to witness C7: like `sJump` but with the
previous emission so recent that the gap check must fail. -/
def sJumpNear : LoopState :=
  { bpm := 60, interval := 1, t0 := 0, points := [(9 / 10, 60)],
    last_point_time := 9 / 10, err_q := [], idx_q := [], onset_idx_hint := 0,
    eval_streak_offset := 0, eval_streak_drift := 0, beat_idx := 1, t := 1 }

/-- Witness for C7 at a concrete state: the jump threshold is met (error
30 ms, streak 1 = persist) but the candidate anchor 1.03 s is only 130 ms
after the last emitted point (< 600 ms), so nothing is emitted and nothing
but the counters changes. -/
theorem failed_gap_check_witness :
    (stepBeat cfgJump [103 / 100] sJumpNear).points = sJumpNear.points ∧
    (stepBeat cfgJump [103 / 100] sJumpNear).eval_streak_offset =
      nextOffset cfgJump (afterMatch cfgJump [103 / 100] sJumpNear) :=
  ⟨(failed_gap_check_preserves_state cfgJump [103 / 100] sJumpNear
      (by decide) (by decide) (Or.inr (by decide)) (by decide)).1,
    (failed_gap_check_preserves_state cfgJump [103 / 100] sJumpNear
      (by decide) (by decide) (Or.inr (by decide)) (by decide)).2.2.2.2.2.2.2.2.1⟩

lemma stepBeat_emit (cfg : Cfg) (onset_times : List ℚ) (s : LoopState) :
    ((stepBeat cfg onset_times s).points = s.points ∧
      (stepBeat cfg onset_times s).last_point_time = s.last_point_time)
    ∨ ∃ a b, (stepBeat cfg onset_times s).points = s.points ++ [(a, b)] ∧
        (stepBeat cfg onset_times s).last_point_time = a ∧
        cfg.min_gap_ms ≤ (a - s.last_point_time) * 1000 := by
  simp only [stepBeat, classify]
  by_cases h1 : cfg.min_matches ≤ ((afterMatch cfg onset_times s).err_q.length : ℤ)
  · rw [if_pos h1]
    by_cases h2 : cfg.persist ≤ ((nextDrift cfg (afterMatch cfg onset_times s) : ℕ) : ℤ)
    · rw [if_pos h2]
      by_cases h3 : cfg.bpm_min_change ≤
          |newBpmOf (afterMatch cfg onset_times s) - (afterMatch cfg onset_times s).bpm|
      · rw [if_pos h3]
        by_cases h4 : gapOK cfg (afterMatch cfg onset_times s)
            (anchorOf (afterMatch cfg onset_times s)
              (find_nearest_onset onset_times s.onset_idx_hint s.t cfg.window_s).1)
        · rw [if_pos h4]
          exact Or.inr ⟨_, _, rfl, rfl, h4⟩
        · rw [if_neg h4]
          exact Or.inl ⟨rfl, rfl⟩
      · rw [if_neg h3]
        exact Or.inl ⟨rfl, rfl⟩
    · rw [if_neg h2]
      by_cases h5 : cfg.persist ≤ ((nextOffset cfg (afterMatch cfg onset_times s) : ℕ) : ℤ)
      · rw [if_pos h5]
        by_cases h4 : gapOK cfg (afterMatch cfg onset_times s)
            (anchorOf (afterMatch cfg onset_times s)
              (find_nearest_onset onset_times s.onset_idx_hint s.t cfg.window_s).1)
        · rw [if_pos h4]
          exact Or.inr ⟨_, _, rfl, rfl, h4⟩
        · rw [if_neg h4]
          exact Or.inl ⟨rfl, rfl⟩
      · rw [if_neg h5]
        exact Or.inl ⟨rfl, rfl⟩
  · rw [if_neg h1]
    exact Or.inl ⟨rfl, rfl⟩

/-- Output soundness invariant: the emitted points are chained with strict
time increase and at least `g` milliseconds of spacing, and the anti-spam
low-water mark `last_point_time` is the time of the last emitted point. -/
def PointsInv (g : ℚ) (s : LoopState) : Prop :=
  s.points.Chain' (fun p q => p.1 < q.1 ∧ g ≤ (q.1 - p.1) * 1000) ∧
  ∃ b, s.points.getLast? = some (s.last_point_time, b)

lemma pointsInv_step (cfg : Cfg) (onset_times : List ℚ) (s : LoopState)
    (hg : 0 < cfg.min_gap_ms) (h : PointsInv cfg.min_gap_ms s) :
    PointsInv cfg.min_gap_ms (stepBeat cfg onset_times s) := by
  obtain ⟨hchain, b0, hlast⟩ := h
  rcases stepBeat_emit cfg onset_times s with ⟨hp, hl⟩ | ⟨a, b, hp, hl, hgap⟩
  · rw [PointsInv, hp, hl]
    exact ⟨hchain, b0, hlast⟩
  · constructor
    · rw [hp]
      rw [List.chain'_append]
      refine ⟨hchain, List.chain'_singleton _, fun x hx y hy => ?_⟩
      rw [hlast] at hx
      simp only [Option.mem_def, Option.some.injEq] at hx
      simp only [List.head?_cons, Option.mem_def, Option.some.injEq] at hy
      subst hx
      subst hy
      constructor
      · nlinarith
      · simpa using hgap
    · refine ⟨b, ?_⟩
      rw [hp, hl, List.getLast?_concat]

lemma pointsInv_runLoop (cfg : Cfg) (onset_times : List ℚ) (duration : ℚ)
    (hg : 0 < cfg.min_gap_ms) :
    ∀ (fuel : ℕ) (s : LoopState), PointsInv cfg.min_gap_ms s →
      PointsInv cfg.min_gap_ms (runLoop cfg onset_times duration fuel s) := by
  intro fuel
  induction fuel with
  | zero => intro s h; exact h
  | succ n ih =>
    intro s h
    unfold runLoop
    split
    · exact ih _ (pointsInv_step cfg onset_times s hg h)
    · exact h

/-- C4 (amended): for every configuration with a *positive* `min_gap_ms` and
every input, the timing-point sequence returned by the core analysis is
strictly increasing in time, and every pair of consecutive points is at
least `min_gap_ms` milliseconds apart. -/
theorem points_strictly_increasing_with_gap (onset_times : List ℚ)
    (bpm_in t0_in duration : ℚ) (cfg : Cfg) (fuel : ℕ)
    (hg : 0 < cfg.min_gap_ms) :
    (analyzeCore onset_times bpm_in t0_in duration cfg fuel).points.Chain'
      (fun p q => p.1 < q.1 ∧ cfg.min_gap_ms ≤ (q.1 - p.1) * 1000) := by
  unfold analyzeCore
  refine (pointsInv_runLoop cfg onset_times duration hg fuel _ ?_).1
  exact ⟨List.chain'_singleton _, _, rfl⟩

/-- Witness for C4's amended theorem at the default configuration on an
empty onset list. -/
theorem points_strictly_increasing_witness :
    (0 : ℚ) < cfgDefault.min_gap_ms ∧
    (analyzeCore [] 120 0 1 cfgDefault 3).points.Chain'
      (fun p q => p.1 < q.1 ∧ cfgDefault.min_gap_ms ≤ (q.1 - p.1) * 1000) :=
  ⟨by norm_num [cfgDefault],
    points_strictly_increasing_with_gap [] 120 0 1 cfgDefault 3
      (by norm_num [cfgDefault])⟩

/-- The configuration of C4's counterexample: `min_gap_ms = 0` (accepted by
the CLI), immediate persistence, one required match, a huge one-second match
window, and a cap of 2 points so the loop halts on its own. -/
def cfgGapZero : Cfg :=
  { cfgDefault with
    match_window_ms := 1000
    min_matches := 1
    persist := 1
    min_gap_ms := 0
    phase_divisions := 1
    phase_search_seconds := 3
    max_points := 2 }

/-- C4, counterexample: with `min_gap_ms = 0` the core emits a second timing
point at *exactly* the time of the first (both at the single onset 0.3 s),
so the output is not strictly increasing in time; the claim fails for this
valid configuration.  (The run terminates by itself at the 2-point cap;
fuel 5 is past the exit.) -/
theorem points_not_strictly_increasing_cex :
    (analyzeCore [3 / 10] 120 0 2 cfgGapZero 5).points =
      [(3 / 10, 120), (3 / 10, 120)] ∧
    ¬ (analyzeCore [3 / 10] 120 0 2 cfgGapZero 5).points.Chain'
      (fun p q => p.1 < q.1 ∧ cfgGapZero.min_gap_ms ≤ (q.1 - p.1) * 1000) := by
  refine ⟨by rfl, ?_⟩
  intro h
  rw [show (analyzeCore [3 / 10] 120 0 2 cfgGapZero 5).points =
    [(3 / 10, 120), (3 / 10, 120)] from by rfl] at h
  rcases h with _ | ⟨⟨hlt, _⟩, _⟩
  exact absurd hlt (by norm_num)

lemma stepBeat_points_le (cfg : Cfg) (onset_times : List ℚ) (s : LoopState) :
    (stepBeat cfg onset_times s).points.length ≤ s.points.length + 1 := by
  rcases stepBeat_emit cfg onset_times s with ⟨hp, _⟩ | ⟨a, b, hp, _, _⟩ <;>
    simp [hp]

lemma runLoop_length (cfg : Cfg) (onset_times : List ℚ) (duration : ℚ) :
    ∀ (fuel : ℕ) (s : LoopState),
      ((s.points.length : ℤ) ≤ max 1 cfg.max_points) →
      (((runLoop cfg onset_times duration fuel s).points.length : ℤ) ≤
        max 1 cfg.max_points) := by
  intro fuel
  induction fuel with
  | zero => intro s h; exact h
  | succ n ih =>
    intro s h
    unfold runLoop
    split
    · rename_i hguard
      refine ih _ ?_
      have hstep := stepBeat_points_le cfg onset_times s
      have hlt := hguard.2
      have hmax : cfg.max_points ≤ max 1 cfg.max_points := le_max_right _ _
      omega
    · exact h

/-- C9 (amended): for every configuration with `max_points ≥ 1` and every
input, the number of timing points returned by the core analysis — the
always-present seed point included — is at most `max_points`. -/
theorem points_length_le_max_points (onset_times : List ℚ)
    (bpm_in t0_in duration : ℚ) (cfg : Cfg) (fuel : ℕ)
    (hmp : 1 ≤ cfg.max_points) :
    ((analyzeCore onset_times bpm_in t0_in duration cfg fuel).points.length : ℤ) ≤
      cfg.max_points := by
  unfold analyzeCore
  have h := runLoop_length cfg onset_times duration fuel
    (initState onset_times bpm_in t0_in cfg) (by simp [initState])
  omega

/-- Configuration of C9's counterexample: `max_points = 0`, which the CLI
accepts. -/
def cfgMaxZero : Cfg := { cfgDefault with max_points := 0 }

/-- C9, counterexample: with `max_points = 0` the loop body never runs, yet
the seed point is already in the output, so the core returns 1 point —
exceeding `max_points`. -/
theorem points_length_cex :
    (analyzeCore [] 120 0 1 cfgMaxZero 1).points.length = 1 ∧
    ¬ (((analyzeCore [] 120 0 1 cfgMaxZero 1).points.length : ℤ) ≤
      cfgMaxZero.max_points) := by
  refine ⟨by rfl, ?_⟩
  intro h
  rw [show (analyzeCore [] 120 0 1 cfgMaxZero 1).points.length = 1 from by rfl] at h
  norm_num [cfgMaxZero, cfgDefault] at h

/-- Witness for C9's amended theorem at the default configuration. -/
theorem points_length_witness :
    (1 : ℤ) ≤ cfgDefault.max_points ∧
    ((analyzeCore [] 120 0 1 cfgDefault 3).points.length : ℤ) ≤
      cfgDefault.max_points :=
  ⟨by norm_num [cfgDefault],
    points_length_le_max_points [] 120 0 1 cfgDefault 3 (by norm_num [cfgDefault])⟩

lemma afterMatch_empty (cfg : Cfg) (s : LoopState) : afterMatch cfg [] s = s := by
  rfl

lemma stepBeat_empty_onsets (cfg : Cfg) (s : LoopState) (he : s.err_q = [])
    (hmm : 1 ≤ cfg.min_matches) : stepBeat cfg [] s = advanceBeat s := by
  have h2 : classify cfg (find_nearest_onset [] s.onset_idx_hint s.t cfg.window_s).1 s
      = s := by
    unfold classify
    rw [if_neg]
    rw [he]
    simp
    omega
  simp only [stepBeat, afterMatch_empty, h2]

lemma runLoop_empty_onsets (cfg : Cfg) (duration : ℚ) (hmm : 1 ≤ cfg.min_matches) :
    ∀ (fuel : ℕ) (s : LoopState), s.err_q = [] →
      (runLoop cfg [] duration fuel s).points = s.points ∧
      (runLoop cfg [] duration fuel s).bpm = s.bpm := by
  intro fuel
  induction fuel with
  | zero => intro s _; exact ⟨rfl, rfl⟩
  | succ n ih =>
    intro s he
    unfold runLoop
    split
    · rw [stepBeat_empty_onsets cfg s he hmm]
      exact ih (advanceBeat s) he
    · exact ⟨rfl, rfl⟩

/-- C8 (amended): for every duration, every seed anchor, every seed bpm
*above the `1e-6` fallback threshold* (the code replaces any seed bpm
`<= 1e-6` — not merely non-positive ones — by 120), and every configuration
with `min_matches ≥ 1`: on an empty onset set the core returns exactly one
timing point, whose time is the seed anchor — which the Phase Selector
passes through unchanged — and whose bpm is the seeded bpm (also returned
as the effective bpm). -/
theorem empty_onsets_single_seed_point (bpm_in t0_in duration : ℚ) (cfg : Cfg)
    (fuel : ℕ) (hbpm : 1 / 1000000 < bpm_in) (hmm : 1 ≤ cfg.min_matches) :
    (analyzeCore [] bpm_in t0_in duration cfg fuel).points = [(t0_in, bpm_in)]
    ∧ choose_best_phase t0_in (60 / bpm_in) [] cfg.window_s
        cfg.phase_search_seconds cfg.phase_divisions = t0_in
    ∧ (analyzeCore [] bpm_in t0_in duration cfg fuel).bpm = bpm_in := by
  have hb : (if bpm_in ≤ 1 / 1000000 then (120 : ℚ) else bpm_in) = bpm_in :=
    if_neg (not_le.mpr hbpm)
  have hinit_pts : (initState [] bpm_in t0_in cfg).points =
      [(t0_in, if bpm_in ≤ 1 / 1000000 then (120 : ℚ) else bpm_in)] := rfl
  have hinit_bpm : (initState [] bpm_in t0_in cfg).bpm =
      (if bpm_in ≤ 1 / 1000000 then (120 : ℚ) else bpm_in) := rfl
  have hrun := runLoop_empty_onsets cfg duration hmm fuel
    (initState [] bpm_in t0_in cfg) rfl
  refine ⟨?_, rfl, ?_⟩
  · unfold analyzeCore
    rw [hrun.1, hinit_pts, hb]
  · unfold analyzeCore
    rw [hrun.2, hinit_bpm, hb]

/-- Witness for C8's amended theorem: seed bpm 120 at anchor 5 s. -/
theorem empty_onsets_witness :
    (analyzeCore [] 120 5 3 cfgDefault 7).points = [(5, 120)] :=
  (empty_onsets_single_seed_point 120 5 3 cfgDefault 7 (by norm_num)
    (by norm_num [cfgDefault])).1

/-- C8, counterexample: the seed bpm `1e-7` is positive, yet the single
returned point carries bpm 120, not the seeded bpm — the code's fallback
fires for any seed `<= 1e-6`, not only for non-positive seeds. -/
theorem empty_onsets_positive_seed_cex :
    (0 : ℚ) < 1 / 10000000 ∧
    (analyzeCore [] (1 / 10000000) 0 1 cfgDefault 3).points = [(0, 120)] ∧
    (120 : ℚ) ≠ 1 / 10000000 := by
  refine ⟨by norm_num, by rfl, by norm_num⟩

lemma insertionSort_map_mono (f : ℚ → ℚ) (hf : ∀ x y : ℚ, x ≤ y → f x ≤ f y)
    (l : List ℚ) :
    List.insertionSort (· ≤ ·) (l.map f) =
      (List.insertionSort (· ≤ ·) l).map f := by
  have hsorted : List.Sorted (· ≤ ·) ((List.insertionSort (· ≤ ·) l).map f) :=
    (List.sorted_insertionSort (· ≤ ·) l).map f (fun a b hab => hf a b hab)
  exact List.eq_of_perm_of_sorted
    ((List.perm_insertionSort _ _).trans ((List.perm_insertionSort _ l).map f).symm)
    (List.sorted_insertionSort (· ≤ ·) (l.map f)) hsorted

lemma insertionSort_map_anti (f : ℚ → ℚ) (hf : ∀ x y : ℚ, x ≤ y → f y ≤ f x)
    (l : List ℚ) :
    List.insertionSort (· ≤ ·) (l.map f) =
      ((List.insertionSort (· ≤ ·) l).map f).reverse := by
  have hsorted : List.Sorted (· ≤ ·) (((List.insertionSort (· ≤ ·) l).map f).reverse) := by
    rw [List.Sorted, List.pairwise_reverse]
    exact (List.sorted_insertionSort (· ≤ ·) l).map f (fun a b hab => hf a b hab)
  exact List.eq_of_perm_of_sorted
    ((List.perm_insertionSort _ _).trans
      (((List.perm_insertionSort _ l).map f).symm.trans
        ((List.insertionSort (· ≤ ·) l).map f).reverse_perm.symm))
    (List.sorted_insertionSort (· ≤ ·) (l.map f)) hsorted

lemma getD_map_q (f : ℚ → ℚ) (L : List ℚ) (i : ℕ) (h : i < L.length) :
    (L.map f).getD i 0 = f (L.getD i 0) := by
  rw [List.getD_eq_getElem _ _ (by simpa using h), List.getElem_map,
    List.getD_eq_getElem _ _ h]

lemma getD_reverse_q (L : List ℚ) (i : ℕ) (h : i < L.length) :
    L.reverse.getD i 0 = L.getD (L.length - 1 - i) 0 := by
  rw [List.getD_eq_getElem _ _ (by simpa using h),
    List.getD_eq_getElem _ _ (by omega)]
  exact List.getElem_reverse _

lemma medianQ_map_affine (a b : ℚ) (l : List ℚ) (hl : l ≠ []) :
    medianQ (l.map (fun q => a + b * q)) = a + b * medianQ l := by
  have hlen0 : 0 < l.length := List.length_pos.mpr hl
  have hslen : (List.insertionSort (· ≤ ·) l).length = l.length :=
    (List.perm_insertionSort _ l).length_eq
  rcases le_or_lt 0 b with hb | hb
  · have hmono : ∀ x y : ℚ, x ≤ y → a + b * x ≤ a + b * y := fun x y hxy => by nlinarith
    unfold medianQ
    rw [List.length_map, insertionSort_map_mono _ hmono l]
    by_cases hodd : l.length % 2 = 1
    · rw [if_pos hodd, if_pos hodd,
        getD_map_q _ _ _ (by rw [hslen]; omega)]
    · rw [if_neg hodd, if_neg hodd,
        getD_map_q _ _ _ (by rw [hslen]; omega),
        getD_map_q _ _ _ (by rw [hslen]; omega)]
      ring
  · have hanti : ∀ x y : ℚ, x ≤ y → a + b * y ≤ a + b * x := fun x y hxy => by nlinarith
    unfold medianQ
    rw [List.length_map, insertionSort_map_anti _ hanti l]
    by_cases hodd : l.length % 2 = 1
    · rw [if_pos hodd, if_pos hodd,
        getD_reverse_q _ _ (by simp [hslen]; omega)]
      rw [show ((List.insertionSort (· ≤ ·) l).map (fun q => a + b * q)).length - 1 -
          l.length / 2 = l.length / 2 from by simp [hslen]; omega]
      rw [getD_map_q _ _ _ (by rw [hslen]; omega)]
    · rw [if_neg hodd, if_neg hodd,
        getD_reverse_q _ _ (by simp [hslen]; omega),
        getD_reverse_q _ _ (by simp [hslen]; omega)]
      rw [show ((List.insertionSort (· ≤ ·) l).map (fun q => a + b * q)).length - 1 -
          (l.length / 2 - 1) = l.length / 2 from by simp [hslen]; omega]
      rw [show ((List.insertionSort (· ≤ ·) l).map (fun q => a + b * q)).length - 1 -
          l.length / 2 = l.length / 2 - 1 from by simp [hslen]; omega]
      rw [getD_map_q _ _ _ (by rw [hslen]; omega),
        getD_map_q _ _ _ (by rw [hslen]; omega)]
      ring

lemma sum_sq_dev_large (ix : List ℤ) (hnd : ix.Nodup) (hlen : 2 ≤ ix.length)
    (m : ℚ) :
    1 / 1000000000000 <
      ((ix.map (fun z : ℤ => ((z : ℚ) - m) * ((z : ℚ) - m))).sum) := by
  match ix, hlen with
  | z1 :: z2 :: rest, _ =>
    have hne : z1 ≠ z2 := by
      rcases List.nodup_cons.mp hnd with ⟨hz1, _⟩
      exact fun he => hz1 (he ▸ List.mem_cons_self z2 rest)
    have hint : (1 : ℚ) ≤ |(z1 : ℚ) - (z2 : ℚ)| := by
      have h1 : (1 : ℤ) ≤ |z1 - z2| := Int.one_le_abs (sub_ne_zero.mpr hne)
      calc (1 : ℚ) = ((1 : ℤ) : ℚ) := by norm_num
        _ ≤ ((|z1 - z2| : ℤ) : ℚ) := by exact_mod_cast h1
        _ = |(z1 : ℚ) - (z2 : ℚ)| := by push_cast; ring_nf
    have key : (1 : ℚ) / 2 ≤ |(z1 : ℚ) - m| ∨ (1 : ℚ) / 2 ≤ |(z2 : ℚ) - m| := by
      by_contra hcon
      push_neg at hcon
      have := abs_sub_abs_le_abs_sub ((z1 : ℚ) - m) ((z2 : ℚ) - m)
      have htri : |(z1 : ℚ) - (z2 : ℚ)| ≤ |(z1 : ℚ) - m| + |(z2 : ℚ) - m| := by
        calc |(z1 : ℚ) - (z2 : ℚ)| = |((z1 : ℚ) - m) - ((z2 : ℚ) - m)| := by ring_nf
          _ ≤ |(z1 : ℚ) - m| + |(z2 : ℚ) - m| := abs_sub _ _
      linarith [hcon.1, hcon.2]
    have hnonneg : ∀ x ∈ (z1 :: z2 :: rest).map
        (fun z : ℤ => ((z : ℚ) - m) * ((z : ℚ) - m)), 0 ≤ x := by
      intro x hx
      simp only [List.mem_map] at hx
      obtain ⟨z, _, rfl⟩ := hx
      exact mul_self_nonneg _
    rcases key with hk | hk
    · have hterm : (1 : ℚ) / 4 ≤ ((z1 : ℚ) - m) * ((z1 : ℚ) - m) := by
        have := abs_nonneg ((z1 : ℚ) - m)
        calc (1 : ℚ) / 4 = (1 / 2) * (1 / 2) := by norm_num
          _ ≤ |(z1 : ℚ) - m| * |(z1 : ℚ) - m| := by nlinarith
          _ = ((z1 : ℚ) - m) * ((z1 : ℚ) - m) := abs_mul_abs_self _
      have hmem : ((z1 : ℚ) - m) * ((z1 : ℚ) - m) ∈ (z1 :: z2 :: rest).map
          (fun z : ℤ => ((z : ℚ) - m) * ((z : ℚ) - m)) :=
        List.mem_map.mpr ⟨z1, List.mem_cons_self _ _, rfl⟩
      have hsum := List.single_le_sum hnonneg _ hmem
      linarith
    · have hterm : (1 : ℚ) / 4 ≤ ((z2 : ℚ) - m) * ((z2 : ℚ) - m) := by
        have := abs_nonneg ((z2 : ℚ) - m)
        calc (1 : ℚ) / 4 = (1 / 2) * (1 / 2) := by norm_num
          _ ≤ |(z2 : ℚ) - m| * |(z2 : ℚ) - m| := by nlinarith
          _ = ((z2 : ℚ) - m) * ((z2 : ℚ) - m) := abs_mul_abs_self _
      have hmem : ((z2 : ℚ) - m) * ((z2 : ℚ) - m) ∈ (z1 :: z2 :: rest).map
          (fun z : ℤ => ((z : ℚ) - m) * ((z : ℚ) - m)) :=
        List.mem_map.mpr ⟨z2, List.mem_cons_of_mem _ (List.mem_cons_self _ _), rfl⟩
      have hsum := List.single_le_sum hnonneg _ hmem
      linarith

lemma slope_sum_affine (x : List ℚ) (a b mx : ℚ) :
    (((x.map (fun q => q - mx)).zip ((x.map (fun q => a + b * q)).map
      (fun q => q - (a + b * mx)))).map (fun p => p.1 * p.2)).sum
    = b * ((x.map (fun q => q - mx)).map (fun q => q * q)).sum := by
  rw [List.map_map,
    show ((fun q => q - (a + b * mx)) ∘ (fun q => a + b * q)) =
      (fun q : ℚ => b * (q - mx)) from by funext q; simp; ring,
    List.zip_map', List.map_map, List.map_map,
    show ((fun p : ℚ × ℚ => p.1 * p.2) ∘ (fun q : ℚ => (q - mx, b * (q - mx)))) =
      (fun q : ℚ => b * ((q - mx) * (q - mx))) from by funext q; simp; ring,
    show ((fun q : ℚ => q * q) ∘ (fun q : ℚ => q - mx)) =
      (fun q : ℚ => (q - mx) * (q - mx)) from rfl]
  exact List.sum_map_mul_left x (fun q => (q - mx) * (q - mx)) b

/-- C6: on any realizable window content — pairwise distinct integer beat
indices — whose errors are exactly affine in the beat index
(`e(i) = a + b·i`), the slope estimator returns exactly `b` with at least 6
samples, independently of the intercept `a`; with fewer than 6 samples it
returns 0 for any errors whatsoever. -/
theorem robust_slope_affine_exact (ix : List ℤ) (a b : ℚ) (hnd : ix.Nodup) :
    (6 ≤ ix.length →
      robust_slope_s_per_beat (ix.map (fun z : ℤ => (z : ℚ)))
        ((ix.map (fun z : ℤ => (z : ℚ))).map (fun q => a + b * q)) = b)
    ∧ ∀ errors_s : List ℚ, ix.length < 6 →
        robust_slope_s_per_beat (ix.map (fun z : ℤ => (z : ℚ))) errors_s = 0 := by
  constructor
  · intro hlen
    have hxlen : (ix.map (fun z : ℤ => (z : ℚ))).length = ix.length := by
      rw [List.length_map]
    have hxne : ix.map (fun z : ℤ => (z : ℚ)) ≠ [] := by
      apply List.ne_nil_of_length_pos
      rw [hxlen]
      omega
    have hmy : medianQ ((ix.map (fun z : ℤ => (z : ℚ))).map (fun q => a + b * q))
        = a + b * medianQ (ix.map (fun z : ℤ => (z : ℚ))) :=
      medianQ_map_affine a b _ hxne
    have hdenom_eq : (((ix.map (fun z : ℤ => (z : ℚ))).map
          (fun q => q - medianQ (ix.map (fun z : ℤ => (z : ℚ))))).map
          (fun q => q * q)).sum
        = (ix.map (fun z : ℤ => ((z : ℚ) - medianQ (ix.map (fun w : ℤ => (w : ℚ)))) *
            ((z : ℚ) - medianQ (ix.map (fun w : ℤ => (w : ℚ)))))).sum := by
      rw [List.map_map, List.map_map]
      rfl
    have hbig := sum_sq_dev_large ix hnd (by omega)
      (medianQ (ix.map (fun w : ℤ => (w : ℚ))))
    simp only [robust_slope_s_per_beat]
    rw [if_neg (by rw [hxlen]; omega)]
    rw [if_neg (by rw [hdenom_eq]; exact not_le.mpr hbig)]
    rw [hmy, slope_sum_affine]
    refine mul_div_cancel_right₀ _ ?_
    rw [hdenom_eq]
    intro h0
    rw [h0] at hbig
    norm_num at hbig
  · intro errors_s hlt
    simp only [robust_slope_s_per_beat]
    rw [if_pos (by rw [List.length_map]; exact hlt)]

/-- Witness for C6: indices 0..5 with errors `1 + 2·i` give slope exactly 2;
two indices with arbitrary errors give slope 0. -/
theorem robust_slope_affine_witness :
    robust_slope_s_per_beat (([0, 1, 2, 3, 4, 5] : List ℤ).map (fun z : ℤ => (z : ℚ)))
      ((([0, 1, 2, 3, 4, 5] : List ℤ).map (fun z : ℤ => (z : ℚ))).map
        (fun q => 1 + 2 * q)) = 2
    ∧ robust_slope_s_per_beat (([0, 1] : List ℤ).map (fun z : ℤ => (z : ℚ)))
        [5, 7] = 0 :=
  ⟨(robust_slope_affine_exact [0, 1, 2, 3, 4, 5] 1 2 (by decide)).1 (by decide),
    (robust_slope_affine_exact [0, 1] 1 2 (by decide)).2 [5, 7] (by decide)⟩

/-- Structural recursion equivalent of `pickBest` (earliest minimum wins):
the head survives unless something strictly smaller follows. -/
def pickBestR : List (ℚ × ℕ) → Option (ℚ × ℕ)
  | [] => none
  | c :: l =>
    match pickBestR l with
    | none => some c
    | some b => if b.1 < c.1 then some b else some c

/-- Merge of an accumulator with the best of the remaining list, mirroring
`pickBest`'s fold. -/
def pmin (a : ℚ × ℕ) : Option (ℚ × ℕ) → ℚ × ℕ
  | none => a
  | some b => if b.1 < a.1 then b else a

lemma foldl_pick (l : List (ℚ × ℕ)) : ∀ a : ℚ × ℕ,
    l.foldl (fun acc c =>
      match acc with
      | none => some c
      | some b => if c.1 < b.1 then some c else some b) (some a)
    = some (pmin a (pickBestR l)) := by
  induction l with
  | nil => intro a; rfl
  | cons c l ih =>
    intro a
    show l.foldl _ (if c.1 < a.1 then some c else some a)
      = some (pmin a (pickBestR (c :: l)))
    cases hr : pickBestR l with
    | none =>
      rcases lt_or_le c.1 a.1 with hca | hca
      · rw [if_pos hca, ih c, hr]
        rw [show pickBestR (c :: l) = some c from by simp [pickBestR, hr]]
        show some c = some (if c.1 < a.1 then c else a)
        rw [if_pos hca]
      · rw [if_neg (not_lt.mpr hca), ih a, hr]
        rw [show pickBestR (c :: l) = some c from by simp [pickBestR, hr]]
        show some a = some (if c.1 < a.1 then c else a)
        rw [if_neg (not_lt.mpr hca)]
    | some b =>
      rcases lt_or_le c.1 a.1 with hca | hca
      · rw [if_pos hca, ih c, hr]
        rcases lt_or_le b.1 c.1 with h1 | h1
        · rw [show pickBestR (c :: l) = some b from by simp [pickBestR, hr, h1]]
          show some (if b.1 < c.1 then b else c) = some (if b.1 < a.1 then b else a)
          rw [if_pos h1, if_pos (lt_trans h1 hca)]
        · rw [show pickBestR (c :: l) = some c from by
            simp [pickBestR, hr, if_neg (not_lt.mpr h1)]]
          show some (if b.1 < c.1 then b else c) = some (if c.1 < a.1 then c else a)
          rw [if_neg (not_lt.mpr h1), if_pos hca]
      · rw [if_neg (not_lt.mpr hca), ih a, hr]
        rcases lt_or_le b.1 c.1 with h1 | h1
        · rw [show pickBestR (c :: l) = some b from by simp [pickBestR, hr, h1]]
        · rw [show pickBestR (c :: l) = some c from by
            simp [pickBestR, hr, if_neg (not_lt.mpr h1)]]
          show some (if b.1 < a.1 then b else a) = some (if c.1 < a.1 then c else a)
          rw [if_neg (not_lt.mpr (le_trans hca h1)), if_neg (not_lt.mpr hca)]

lemma pickBest_eq_pickBestR (l : List (ℚ × ℕ)) : pickBest l = pickBestR l := by
  cases l with
  | nil => rfl
  | cons c l =>
    show l.foldl _ (some c) = _
    rw [foldl_pick l c]
    cases hr : pickBestR l with
    | none => rw [show pickBestR (c :: l) = some c from by simp [pickBestR, hr]]; rfl
    | some b =>
      rcases lt_or_le b.1 c.1 with h1 | h1
      · rw [show pickBestR (c :: l) = some b from by simp [pickBestR, hr, h1]]
        show some (if b.1 < c.1 then b else c) = some b
        rw [if_pos h1]
      · rw [show pickBestR (c :: l) = some c from by
          simp [pickBestR, hr, if_neg (not_lt.mpr h1)]]
        show some (if b.1 < c.1 then b else c) = some c
        rw [if_neg (not_lt.mpr h1)]

lemma pickBestR_none_iff (l : List (ℚ × ℕ)) : pickBestR l = none ↔ l = [] := by
  cases l with
  | nil => simp [pickBestR]
  | cons c l =>
    simp only [pickBestR]
    constructor
    · intro h
      cases hr : pickBestR l with
      | none => rw [hr] at h; simp at h
      | some b =>
        rw [hr] at h
        have h' : (if b.1 < c.1 then some b else some c) = none := h
        split_ifs at h' <;> simp at h'
    · intro h
      simp at h

lemma pickBestR_cons_cases (d : ℚ × ℕ) (l : List (ℚ × ℕ)) (c : ℚ × ℕ)
    (h : pickBestR (d :: l) = some c) :
    (c = d ∧ ∀ b, pickBestR l = some b → d.1 ≤ b.1) ∨
      (pickBestR l = some c ∧ c.1 < d.1) := by
  simp only [pickBestR] at h
  cases hr : pickBestR l with
  | none =>
    rw [hr] at h
    have h' : some d = some c := h
    exact Or.inl ⟨(Option.some.inj h').symm, fun b hb => absurd hb (by simp)⟩
  | some b =>
    rw [hr] at h
    have h' : (if b.1 < d.1 then some b else some d) = some c := h
    rcases lt_or_le b.1 d.1 with hb | hb
    · rw [if_pos hb] at h'
      have hcb : b = c := Option.some.inj h'
      exact Or.inr ⟨hcb ▸ rfl, hcb ▸ hb⟩
    · rw [if_neg (not_lt.mpr hb)] at h'
      have hcd : d = c := Option.some.inj h'
      exact Or.inl ⟨hcd.symm, fun b' hb' => (Option.some.inj hb') ▸ hb⟩

lemma pickBestR_mem : ∀ (l : List (ℚ × ℕ)) (c : ℚ × ℕ),
    pickBestR l = some c → c ∈ l := by
  intro l
  induction l with
  | nil => intro c h; simp [pickBestR] at h
  | cons d l ih =>
    intro c h
    rcases pickBestR_cons_cases d l c h with ⟨rfl, _⟩ | ⟨h1, _⟩
    · exact List.mem_cons_self _ _
    · exact List.mem_cons_of_mem _ (ih c h1)

lemma pickBestR_min : ∀ (l : List (ℚ × ℕ)) (c : ℚ × ℕ),
    pickBestR l = some c → ∀ p ∈ l, c.1 ≤ p.1 := by
  intro l
  induction l with
  | nil => intro c h; simp [pickBestR] at h
  | cons d l ih =>
    intro c h p hp
    rcases pickBestR_cons_cases d l c h with ⟨rfl, hmin⟩ | ⟨h1, hlt⟩
    · rcases List.mem_cons.mp hp with rfl | hpl
      · exact le_refl _
      · cases hpl' : pickBestR l with
        | none =>
          rw [(pickBestR_none_iff l).mp hpl'] at hpl
          simp at hpl
        | some b =>
          exact le_trans (hmin b hpl') (ih b hpl' p hpl)
    · rcases List.mem_cons.mp hp with rfl | hpl
      · exact le_of_lt hlt
      · exact ih c h1 p hpl

/-- First-minimum-wins: in a candidate list whose indices strictly increase,
any candidate listed before the picked one is strictly farther away. -/
lemma pickBestR_first_wins : ∀ (l : List (ℚ × ℕ)) (c : ℚ × ℕ),
    pickBestR l = some c → l.Pairwise (fun p q => p.2 < q.2) →
    ∀ d ∈ l, d.2 < c.2 → c.1 < d.1 := by
  intro l
  induction l with
  | nil => intro c h; simp [pickBestR] at h
  | cons e l ih =>
    intro c h hpw d hd hdc
    rcases pickBestR_cons_cases e l c h with ⟨rfl, _⟩ | ⟨hpk, hlt⟩
    · rcases List.mem_cons.mp hd with rfl | hdl
      · omega
      · have := (List.pairwise_cons.mp hpw).1 d hdl
        omega
    · rcases List.mem_cons.mp hd with rfl | hdl
      · exact hlt
      · exact ih c hpk (List.pairwise_cons.mp hpw).2 d hdl hdc

lemma advanceHintAux_ge (o : List ℚ) (t w : ℚ) :
    ∀ (fuel i : ℕ), i ≤ advanceHintAux o t w fuel i := by
  intro fuel
  induction fuel with
  | zero => intro i; exact le_refl i
  | succ n ih =>
    intro i
    simp only [advanceHintAux]
    split
    · exact le_trans (Nat.le_succ i) (ih (i + 1))
    · exact le_refl i

lemma advanceHint_ge (o : List ℚ) (t w : ℚ) (i : ℕ) :
    i ≤ advanceHint o t w i :=
  advanceHintAux_ge o t w _ i

lemma advanceHintAux_lt_length (o : List ℚ) (t w : ℚ) :
    ∀ (fuel i : ℕ), i < o.length → advanceHintAux o t w fuel i < o.length := by
  intro fuel
  induction fuel with
  | zero => intro i h; exact h
  | succ n ih =>
    intro i h
    simp only [advanceHintAux]
    split
    · rename_i hc
      exact ih (i + 1) hc.1
    · exact h

lemma advanceHint_lt_length (o : List ℚ) (t w : ℚ) (i : ℕ) (h : i < o.length) :
    advanceHint o t w i < o.length :=
  advanceHintAux_lt_length o t w _ i h

lemma advanceHintAux_passed (o : List ℚ) (t w : ℚ) :
    ∀ (fuel i j : ℕ), i ≤ j → j < advanceHintAux o t w fuel i →
      o.getD j 0 < t - w := by
  intro fuel
  induction fuel with
  | zero =>
    intro i j hij hj
    simp only [advanceHintAux] at hj
    omega
  | succ n ih =>
    intro i j hij hj
    simp only [advanceHintAux] at hj
    split at hj
    · rename_i hc
      rcases Nat.lt_or_ge j (i + 1) with hji | hji
      · have : j = i := by omega
        subst this
        exact hc.2
      · exact ih (i + 1) j hji hj
    · omega

lemma advanceHint_passed (o : List ℚ) (t w : ℚ) (i j : ℕ) (hij : i ≤ j)
    (hj : j < advanceHint o t w i) : o.getD j 0 < t - w :=
  advanceHintAux_passed o t w _ i j hij hj

lemma advanceHintAux_stop (o : List ℚ) (t w : ℚ) :
    ∀ (fuel i : ℕ), o.length - i ≤ fuel →
      ¬(advanceHintAux o t w fuel i + 1 < o.length ∧
        o.getD (advanceHintAux o t w fuel i) 0 < t - w) := by
  intro fuel
  induction fuel with
  | zero =>
    intro i hfi
    simp only [advanceHintAux]
    intro hcon
    omega
  | succ n ih =>
    intro i hfi
    simp only [advanceHintAux]
    split
    · rename_i hc
      exact ih (i + 1) (by omega)
    · rename_i hc
      exact hc

lemma advanceHint_stop (o : List ℚ) (t w : ℚ) (i : ℕ) :
    ¬(advanceHint o t w i + 1 < o.length ∧
      o.getD (advanceHint o t w i) 0 < t - w) :=
  advanceHintAux_stop o t w _ i (le_refl _)

lemma sorted_getD_le (o : List ℚ) (hs : o.Sorted (· ≤ ·)) (a b : ℕ)
    (hab : a ≤ b) (hb : b < o.length) : o.getD a 0 ≤ o.getD b 0 := by
  rw [List.getD_eq_get _ _ (lt_of_le_of_lt hab hb), List.getD_eq_get _ _ hb]
  exact hs.rel_get_of_le (by exact hab)

lemma mem_candIdxs_iff (n i j : ℕ) :
    j ∈ candIdxs n i ↔ (j : ℤ) < n ∧
      ((j : ℤ) = (i : ℤ) - 1 ∨ (j : ℤ) = i ∨ (j : ℤ) = i + 1 ∨ (j : ℤ) = i + 2) := by
  unfold candIdxs
  simp only [List.mem_map, List.mem_filter, List.mem_cons, List.mem_singleton,
    decide_eq_true_eq]
  constructor
  · rintro ⟨z, ⟨hz, h0, hn⟩, rfl⟩
    rcases hz with rfl | rfl | rfl | rfl | h <;>
      first
        | (constructor
           · rw [Int.toNat_of_nonneg h0]; exact hn
           · rw [Int.toNat_of_nonneg h0]; omega)
        | simp at h
  · rintro ⟨hn, hz⟩
    refine ⟨(j : ℤ), ⟨?_, by positivity, hn⟩, Int.toNat_natCast j⟩
    omega

lemma candF_eq_some (o : List ℚ) (t w : ℚ) (j : ℕ) (x : ℚ × ℕ) :
    candF o t w j = some x ↔
      |o.getD j 0 - t| ≤ w ∧ x = (|o.getD j 0 - t|, j) := by
  simp only [candF]
  split_ifs with hle
  · constructor
    · intro h
      exact ⟨hle, (Option.some.inj h).symm⟩
    · rintro ⟨_, rfl⟩
      rfl
  · constructor
    · intro h
      simp at h
    · rintro ⟨hc, _⟩
      exact absurd hc hle

lemma candF_snd (o : List ℚ) (t w : ℚ) (j : ℕ) (x : ℚ × ℕ)
    (h : candF o t w j = some x) : x.2 = j := by
  rw [((candF_eq_some o t w j x).mp h).2]

lemma candIdxs_pairwise (n i : ℕ) : (candIdxs n i).Pairwise (· < ·) := by
  unfold candIdxs
  rw [List.pairwise_map]
  have hbase : ([(i : ℤ) - 1, (i : ℤ), (i : ℤ) + 1, (i : ℤ) + 2] : List ℤ).Pairwise
      (· < ·) := by
    simp [List.pairwise_cons]
    omega
  have hfil : (List.filter (fun j => decide (0 ≤ j ∧ j < (n : ℤ)))
      [(i : ℤ) - 1, (i : ℤ), (i : ℤ) + 1, (i : ℤ) + 2]).Pairwise (· < ·) :=
    hbase.sublist (List.filter_sublist _)
  refine hfil.imp_of_mem ?_
  intro a b ha hb hab
  have ha0 : (0 : ℤ) ≤ a := by
    have := (List.mem_filter.mp ha).2
    simp at this
    exact this.1
  omega

lemma cands_pairwise (o : List ℚ) (t w : ℚ) (n i : ℕ) :
    ((candIdxs n i).filterMap (candF o t w)).Pairwise (fun p q => p.2 < q.2) := by
  rw [List.pairwise_filterMap]
  refine (candIdxs_pairwise n i).imp ?_
  intro a b hab x hx y hy
  rw [candF_snd o t w a x hx, candF_snd o t w b y hy]
  exact hab

lemma find_step (o : List ℚ) (w t : ℚ) (h : ℕ) (hs : o.Sorted (· ≤ ·))
    (hinv : HintInv o w t h) :
    h ≤ (find_nearest_onset o h t w).2 ∧
      HintInv o w t (find_nearest_onset o h t w).2 := by
  rcases hinv with hemp | ⟨hhlt, hdis⟩
  · subst hemp
    exact ⟨le_refl h, Or.inl rfl⟩
  · have hne : ¬ o.length = 0 := by omega
    have hone : o ≠ [] := by
      intro hcon
      rw [hcon] at hhlt
      simp at hhlt
    simp only [find_nearest_onset]
    rw [if_neg hne, pickBest_eq_pickBestR]
    have hge : h ≤ advanceHint o t w h := advanceHint_ge o t w h
    have hilt : advanceHint o t w h < o.length := advanceHint_lt_length o t w h hhlt
    cases hpk : pickBestR ((candIdxs o.length (advanceHint o t w h)).filterMap
        (candF o t w)) with
    | none =>
      refine ⟨hge, Or.inr ⟨hilt, ?_⟩⟩
      rcases Nat.lt_or_ge h (advanceHint o t w h) with hlt | hge2
      · refine Or.inr (Or.inl ?_)
        exact advanceHint_passed o t w h (advanceHint o t w h - 1) (by omega) (by omega)
      · have heq : advanceHint o t w h = h := by omega
        rw [heq]
        exact hdis
    | some best =>
      obtain ⟨j, hjmem, hFj⟩ := List.mem_filterMap.mp (pickBestR_mem _ _ hpk)
      obtain ⟨hdtle, hxeq⟩ := (candF_eq_some o t w j best).mp hFj
      have hw0 : (0 : ℚ) ≤ w := le_trans (abs_nonneg _) hdtle
      obtain ⟨hjn, hjcase⟩ := (mem_candIdxs_iff o.length (advanceHint o t w h) j).mp hjmem
      have hjn' : j < o.length := by exact_mod_cast hjn
      -- the neighbourhood's left edge is never picked
      have hj_ge : (advanceHint o t w h : ℤ) ≤ (j : ℤ) := by
        by_contra hjlt
        push_neg at hjlt
        have hj_eq : (j : ℤ) = (advanceHint o t w h : ℤ) - 1 := by omega
        have hi1 : 1 ≤ advanceHint o t w h := by omega
        have hjnat : j = advanceHint o t w h - 1 := by omega
        rcases Nat.lt_or_ge h (advanceHint o t w h) with hlt | hge2
        · -- the advance loop stepped over index j, so it is left of the window
          have hout : o.getD j 0 < t - w :=
            advanceHint_passed o t w h j (by omega) (by omega)
          have : |o.getD j 0 - t| > w := by
            rw [abs_of_nonpos (by linarith)]
            linarith
          linarith
        · -- no advance: the invariant at h speaks about j = h - 1
          have heq : advanceHint o t w h = h := by omega
          rw [heq] at hjnat
          rcases hdis with h0 | hout | ⟨hle3, hfar3⟩
          · omega
          · have hgt : |o.getD j 0 - t| > w := by
              rw [hjnat, abs_of_nonpos (show o.getD (h - 1) 0 - t ≤ 0 by linarith)]
              linarith
            linarith
          · -- the onset at h is closer, in window, and listed after j: contradiction
            have hdth : |o.getD h 0 - t| < |o.getD j 0 - t| := by
              rw [hjnat, abs_of_nonpos (show o.getD (h - 1) 0 - t ≤ 0 by linarith)]
              linarith
            have hhmem : h ∈ candIdxs o.length (advanceHint o t w h) := by
              rw [mem_candIdxs_iff]
              constructor
              · exact_mod_cast hhlt
              · rw [heq]
                omega
            have hhcand : candF o t w h = some (|o.getD h 0 - t|, h) := by
              rw [candF_eq_some]
              exact ⟨le_trans hdth.le hdtle, rfl⟩
            have hminh := pickBestR_min _ _ hpk (|o.getD h 0 - t|, h)
              (List.mem_filterMap.mpr ⟨h, hhmem, hhcand⟩)
            rw [hxeq] at hminh
            have hminh' : |o.getD j 0 - t| ≤ |o.getD h 0 - t| := hminh
            linarith
      have hjge : advanceHint o t w h ≤ j := by exact_mod_cast hj_ge
      have hbest2 : best.2 = j := by rw [hxeq]
      constructor
      · rw [hbest2]
        omega
      · rw [hbest2]
        refine Or.inr ⟨hjn', ?_⟩
        rcases Nat.eq_zero_or_pos j with rfl | hj1
        · exact Or.inl rfl
        · by_cases hcand : |o.getD (j - 1) 0 - t| ≤ w
          · -- the left neighbour is a candidate, so the pick beats it strictly
            have hjm1mem : j - 1 ∈ candIdxs o.length (advanceHint o t w h) := by
              rw [mem_candIdxs_iff]
              constructor
              · have : j - 1 < o.length := by omega
                exact_mod_cast this
              · rcases hjcase with hc | hc | hc | hc <;> [omega; skip; skip; skip] <;>
                  · rw [show ((j - 1 : ℕ) : ℤ) = (j : ℤ) - 1 from by omega]
                    omega
            have hjm1cand : candF o t w (j - 1) = some (|o.getD (j - 1) 0 - t|, j - 1) := by
              rw [candF_eq_some]
              exact ⟨hcand, rfl⟩
            have hwin := pickBestR_first_wins _ _ hpk
              (cands_pairwise o t w o.length (advanceHint o t w h))
              (|o.getD (j - 1) 0 - t|, j - 1)
              (List.mem_filterMap.mpr ⟨j - 1, hjm1mem, hjm1cand⟩)
              (by rw [hbest2]; omega)
            rw [hxeq] at hwin
            have hwin' : |o.getD j 0 - t| < |o.getD (j - 1) 0 - t| := hwin
            have hsorted_le : o.getD (j - 1) 0 ≤ o.getD j 0 :=
              sorted_getD_le o hs (j - 1) j (by omega) hjn'
            have hlej : o.getD (j - 1) 0 ≤ t := by
              by_contra hgt
              push_neg at hgt
              have h1 : |o.getD (j - 1) 0 - t| = o.getD (j - 1) 0 - t :=
                abs_of_pos (by linarith)
              have h2 : o.getD j 0 - t ≤ |o.getD j 0 - t| := le_abs_self _
              linarith
            refine Or.inr (Or.inr ⟨hlej, ?_⟩)
            have h1 : |o.getD (j - 1) 0 - t| = t - o.getD (j - 1) 0 := by
              rw [abs_of_nonpos (by linarith)]
              ring
            linarith
          · -- the left neighbour is out of the window, necessarily to the left
            push_neg at hcand
            have hsorted_le : o.getD (j - 1) 0 ≤ o.getD j 0 :=
              sorted_getD_le o hs (j - 1) j (by omega) hjn'
            have hjr : o.getD j 0 - t ≤ w := le_trans (le_abs_self _) hdtle
            have hlej : o.getD (j - 1) 0 ≤ t := by
              by_contra hgt
              push_neg at hgt
              have h1 : |o.getD (j - 1) 0 - t| = o.getD (j - 1) 0 - t :=
                abs_of_pos (by linarith)
              linarith
            refine Or.inr (Or.inl ?_)
            have h1 : |o.getD (j - 1) 0 - t| = t - o.getD (j - 1) 0 := by
              rw [abs_of_nonpos (by linarith)]
              ring
            linarith

lemma hintInv_mono (o : List ℚ) (w t t' : ℚ) (h : ℕ) (htt : t ≤ t')
    (hinv : HintInv o w t h) : HintInv o w t' h := by
  rcases hinv with hemp | ⟨hlt, hdis⟩
  · exact Or.inl hemp
  · refine Or.inr ⟨hlt, ?_⟩
    rcases hdis with h0 | hleft | ⟨hle, hfar⟩
    · exact Or.inl h0
    · exact Or.inr (Or.inl (by linarith))
    · refine Or.inr (Or.inr ⟨by linarith, ?_⟩)
      have habs : |o.getD h 0 - t'| ≤ |o.getD h 0 - t| + |t - t'| := abs_sub_le _ _ _
      rw [abs_of_nonpos (by linarith : t - t' ≤ 0)] at habs
      linarith

lemma matchRun_chain (o : List ℚ) (w : ℚ) (hs : o.Sorted (· ≤ ·)) :
    ∀ (qs : List ℚ) (h : ℕ) (t : ℚ), List.Chain (· ≤ ·) t qs →
      HintInv o w t h →
      List.Chain' (· ≤ ·) ((h : ℕ) :: (matchRun o w h qs).map Prod.snd) := by
  intro qs
  induction qs with
  | nil => intro h t _ _; exact List.chain'_singleton _
  | cons q rest ih =>
    intro h t hch hinv
    rcases hch with _ | ⟨htq, hch'⟩
    have hinv_q : HintInv o w q h := hintInv_mono o w t q h htq hinv
    obtain ⟨hle, hinv'⟩ := find_step o w q h hs hinv_q
    simp only [matchRun, List.map_cons]
    exact List.Chain'.cons hle (ih (find_nearest_onset o h q w).2 q
      (List.chain_of_chain_cons (List.Chain.cons (le_refl q) hch')) hinv')

/-- C5: across any monotone (non-decreasing, hence in particular strictly
increasing) sequence of query times issued to `find_nearest_onset` on a
sorted onset list with the hint threaded from call to call starting at 0,
every call returns a hint at least as large as the hint passed in: the
chain `0, hint₁, hint₂, …` is non-decreasing — the hint only advances,
never regresses. -/
theorem matcher_hint_monotone (onset_times qs : List ℚ) (window_s : ℚ)
    (hs : onset_times.Sorted (· ≤ ·)) (hq : qs.Chain' (· ≤ ·)) :
    List.Chain' (· ≤ ·)
      ((0 : ℕ) :: (matchRun onset_times window_s 0 qs).map Prod.snd) := by
  cases qs with
  | nil => simp [matchRun]
  | cons q rest =>
    refine matchRun_chain onset_times window_s hs (q :: rest) 0 q
      (List.Chain.cons (le_refl q) ?_) ?_
    · exact hq
    · by_cases hemp : onset_times = []
      · exact Or.inl hemp
      · exact Or.inr ⟨List.length_pos.mpr hemp, Or.inl rfl⟩

/-- Witness for C5: three increasing queries against two onsets; the hint
trace `0, 0, 1, 1` is non-decreasing. -/
theorem matcher_hint_monotone_witness :
    List.Chain' (· ≤ ·)
      ((0 : ℕ) :: (matchRun [1, 2] (1 / 10) 0 [1, 2, 21 / 10]).map Prod.snd) :=
  matcher_hint_monotone [1, 2] [1, 2, 21 / 10] (1 / 10) (by decide)
    (by norm_num [List.chain'_cons])

/-- The amendment's spacing hypothesis: consecutive onsets are separated by
more than the tolerance window. -/
def WellSpaced (onset_times : List ℚ) (window_s : ℚ) : Prop :=
  onset_times.Chain' (fun a b => a + window_s < b)

lemma spaced_step (o : List ℚ) (w : ℚ) (hsp : WellSpaced o w) (j : ℕ)
    (hj : j + 1 < o.length) : o.getD j 0 + w < o.getD (j + 1) 0 := by
  rw [List.getD_eq_get _ _ (by omega), List.getD_eq_get _ _ hj]
  exact List.chain'_iff_get.mp hsp j (by omega)

lemma spaced_two_step (o : List ℚ) (w : ℚ) (hw : 0 ≤ w) (hsp : WellSpaced o w)
    (j : ℕ) (hj : j + 2 < o.length) :
    o.getD j 0 + 2 * w < o.getD (j + 2) 0 := by
  have h1 := spaced_step o w hsp j (by omega)
  have h2 := spaced_step o w hsp (j + 1) (by omega)
  linarith

lemma leftOut_advance (o : List ℚ) (w t : ℚ) (h : ℕ) (hs : o.Sorted (· ≤ ·))
    (hLO : LeftOut o w t h) (hhlt : h < o.length) :
    LeftOut o w t (advanceHint o t w h) := by
  intro j hj
  rcases Nat.lt_or_ge j h with hjh | hjh
  · by_cases hj2 : j + 2 ≤ h
    · exact hLO j hj2
    · -- j = h - 1 and the advance strictly passed h
      have hjeq : j + 1 = h := by omega
      have hhi : h < advanceHint o t w h := by omega
      have hph : o.getD h 0 < t - w :=
        advanceHint_passed o t w h h (le_refl h) hhi
      have := sorted_getD_le o hs j h (by omega) hhlt
      linarith
  · exact advanceHint_passed o t w h j hjh (by omega)

/-- Under the spacing hypothesis every in-window onset index lies in the
clamped neighbourhood `{i-1, i, i+1}` of the advanced hint. -/
lemma window_mem_candIdxs (o : List ℚ) (w t : ℚ) (h : ℕ) (hs : o.Sorted (· ≤ ·))
    (hw : 0 ≤ w) (hsp : WellSpaced o w) (hLO : LeftOut o w t h)
    (hhlt : h < o.length) (j : ℕ) (hj : j < o.length)
    (hdt : |o.getD j 0 - t| ≤ w) :
    j ∈ candIdxs o.length (advanceHint o t w h) ∧
      (j : ℤ) ≤ (advanceHint o t w h : ℤ) + 1 := by
  have hilt : advanceHint o t w h < o.length := advanceHint_lt_length o t w h hhlt
  have hLO' : LeftOut o w t (advanceHint o t w h) := leftOut_advance o w t h hs hLO hhlt
  have hnotleft : ¬ (j + 2 ≤ advanceHint o t w h) := by
    intro hcon
    have := hLO' j hcon
    have : |o.getD j 0 - t| > w := by
      rw [abs_of_nonpos (by linarith)]
      linarith
    linarith
  have hnotright : ¬ (advanceHint o t w h + 2 ≤ j) := by
    intro hcon
    have hstop := advanceHint_stop o t w h
    have hi1 : advanceHint o t w h + 1 < o.length := by omega
    have hoi : ¬ o.getD (advanceHint o t w h) 0 < t - w := fun hcc =>
      hstop ⟨hi1, hcc⟩
    push_neg at hoi
    have h2 := spaced_two_step o w hw hsp (advanceHint o t w h) (by omega)
    have hmono : o.getD (advanceHint o t w h + 2) 0 ≤ o.getD j 0 :=
      sorted_getD_le o hs _ j (by omega) hj
    have : o.getD j 0 - t > w := by linarith
    have habs : o.getD j 0 - t ≤ |o.getD j 0 - t| := le_abs_self _
    linarith
  constructor
  · rw [mem_candIdxs_iff]
    refine ⟨by exact_mod_cast hj, ?_⟩
    omega
  · omega

lemma candsF_pairwise (o : List ℚ) (t w : ℚ) (js : List ℕ)
    (hjs : js.Pairwise (· < ·)) :
    (js.filterMap (candF o t w)).Pairwise (fun p q => p.2 < q.2) := by
  rw [List.pairwise_filterMap]
  refine hjs.imp ?_
  intro a b hab x hx y hy
  rw [candF_snd o t w a x hx, candF_snd o t w b y hy]
  exact hab

lemma cands_eq_brute (o : List ℚ) (w t : ℚ) (h : ℕ) (hs : o.Sorted (· ≤ ·))
    (hw : 0 ≤ w) (hsp : WellSpaced o w) (hLO : LeftOut o w t h)
    (hhlt : h < o.length) :
    (candIdxs o.length (advanceHint o t w h)).filterMap (candF o t w) =
      (List.range o.length).filterMap (candF o t w) := by
  have hpw1 := candsF_pairwise o t w _
    (candIdxs_pairwise o.length (advanceHint o t w h))
  have hpw2 := candsF_pairwise o t w _ (List.pairwise_lt_range o.length)
  have hnd1 : ((candIdxs o.length (advanceHint o t w h)).filterMap
      (candF o t w)).Nodup :=
    hpw1.imp (fun hab he => absurd (he ▸ hab) (lt_irrefl _))
  have hnd2 : ((List.range o.length).filterMap (candF o t w)).Nodup :=
    hpw2.imp (fun hab he => absurd (he ▸ hab) (lt_irrefl _))
  have hmem : ∀ x, x ∈ (candIdxs o.length (advanceHint o t w h)).filterMap
      (candF o t w) ↔ x ∈ (List.range o.length).filterMap (candF o t w) := by
    intro x
    rw [List.mem_filterMap, List.mem_filterMap]
    constructor
    · rintro ⟨j, hjmem, hFj⟩
      have hjlt := ((mem_candIdxs_iff o.length (advanceHint o t w h) j).mp hjmem).1
      exact ⟨j, List.mem_range.mpr (by exact_mod_cast hjlt), hFj⟩
    · rintro ⟨j, hjmem, hFj⟩
      have hjlt := List.mem_range.mp hjmem
      have hdt := ((candF_eq_some o t w j x).mp hFj).1
      exact ⟨j, (window_mem_candIdxs o w t h hs hw hsp hLO hhlt j hjlt hdt).1, hFj⟩
  haveI : IsAntisymm (ℚ × ℕ) (fun p q => p.2 < q.2) :=
    ⟨fun a b h1 h2 => absurd h2 (by omega)⟩
  exact List.eq_of_perm_of_sorted
    ((List.perm_ext_iff_of_nodup hnd1 hnd2).mpr hmem) hpw1 hpw2

lemma find_step_brute (o : List ℚ) (w t : ℚ) (h : ℕ) (hs : o.Sorted (· ≤ ·))
    (hw : 0 ≤ w) (hsp : WellSpaced o w) (hLO : LeftOut o w t h)
    (hhlt : h < o.length) :
    (find_nearest_onset o h t w).1 = bruteNearest o t w ∧
      LeftOut o w t (find_nearest_onset o h t w).2 ∧
      (find_nearest_onset o h t w).2 < o.length := by
  have hne : ¬ o.length = 0 := by omega
  have hilt : advanceHint o t w h < o.length := advanceHint_lt_length o t w h hhlt
  have hLOadv := leftOut_advance o w t h hs hLO hhlt
  have heq := cands_eq_brute o w t h hs hw hsp hLO hhlt
  simp only [find_nearest_onset, bruteNearest]
  rw [if_neg hne, heq]
  cases hpk : pickBest ((List.range o.length).filterMap (candF o t w)) with
  | none => exact ⟨rfl, hLOadv, hilt⟩
  | some best =>
    rw [pickBest_eq_pickBestR] at hpk
    obtain ⟨j, hjmem, hFj⟩ := List.mem_filterMap.mp (pickBestR_mem _ _ hpk)
    obtain ⟨hdtle, hxeq⟩ := (candF_eq_some o t w j best).mp hFj
    have hjlt := List.mem_range.mp hjmem
    have hnb : (j : ℤ) ≤ (advanceHint o t w h : ℤ) + 1 :=
      (window_mem_candIdxs o w t h hs hw hsp hLO hhlt j hjlt hdtle).2
    have hbest2 : best.2 = j := by rw [hxeq]
    refine ⟨rfl, ?_, by rw [hbest2]; exact hjlt⟩
    rw [hbest2]
    intro k hk
    by_cases hka : k + 2 ≤ advanceHint o t w h
    · exact hLOadv k hka
    · -- k + 2 = j = advanceHint + 1: the double spacing step pushes k left
      have hkj : k + 2 = j := by omega
      have hright : o.getD j 0 ≤ t + w := by
        have := le_abs_self (o.getD j 0 - t)
        linarith
      have h2 := spaced_two_step o w hw hsp k (by omega)
      rw [hkj] at h2
      linarith

lemma leftOut_mono (o : List ℚ) (w t t' : ℚ) (h : ℕ) (hle : t ≤ t')
    (hLO : LeftOut o w t h) : LeftOut o w t' h := by
  intro j hj
  have := hLO j hj
  linarith

lemma matchRun_brute (o : List ℚ) (w : ℚ) (hs : o.Sorted (· ≤ ·))
    (hw : 0 ≤ w) (hsp : WellSpaced o w) :
    ∀ (qs : List ℚ) (h : ℕ) (t : ℚ), List.Chain (· ≤ ·) t qs →
      LeftOut o w t h → h < o.length →
      (matchRun o w h qs).map Prod.fst =
        qs.map (fun q => bruteNearest o q w) := by
  intro qs
  induction qs with
  | nil => intro h t _ _ _; rfl
  | cons q rest ih =>
    intro h t hch hLO hhlt
    rcases hch with _ | ⟨htq, hch'⟩
    have hLOq := leftOut_mono o w t q h htq hLO
    obtain ⟨hbrute, hLO', hlt'⟩ := find_step_brute o w q h hs hw hsp hLOq hhlt
    simp only [matchRun, List.map_cons]
    rw [hbrute]
    exact congrArg _ (ih (find_nearest_onset o h q w).2 q hch' hLO' hlt')

lemma matchRun_empty (w : ℚ) : ∀ (qs : List ℚ) (h : ℕ),
    (matchRun [] w h qs).map Prod.fst =
      qs.map (fun q => bruteNearest [] q w) := by
  intro qs
  induction qs with
  | nil => intro h; rfl
  | cons q rest ih =>
    intro h
    have hstep : matchRun [] w h (q :: rest) =
        ((none : Option ℚ), h) :: matchRun [] w h rest := rfl
    rw [hstep, List.map_cons, List.map_cons, ih h]
    rfl

lemma bruteNearest_none_iff (o : List ℚ) (q w : ℚ) :
    bruteNearest o q w = none ↔ ∀ x ∈ o, ¬ |x - q| ≤ w := by
  simp only [bruteNearest]
  rw [pickBest_eq_pickBestR]
  constructor
  · intro hnone x hx hcon
    cases hpk : pickBestR ((List.range o.length).filterMap (candF o q w)) with
    | some b => rw [hpk] at hnone; simp at hnone
    | none =>
      have hnil := (pickBestR_none_iff _).mp hpk
      rw [List.filterMap_eq_nil_iff] at hnil
      obtain ⟨n', hn', hgetx⟩ := List.mem_iff_getElem.mp hx
      have hF := hnil n' (List.mem_range.mpr hn')
      have hdt : |o.getD n' 0 - q| ≤ w := by
        rw [List.getD_eq_getElem o 0 hn', hgetx]
        exact hcon
      have : candF o q w n' = some (|o.getD n' 0 - q|, n') :=
        (candF_eq_some o q w n' _).mpr ⟨hdt, rfl⟩
      rw [hF] at this
      simp at this
  · intro hall
    cases hpk : pickBestR ((List.range o.length).filterMap (candF o q w)) with
    | none => rfl
    | some b =>
      exfalso
      obtain ⟨j, hjmem, hFj⟩ := List.mem_filterMap.mp (pickBestR_mem _ _ hpk)
      have hjlt := List.mem_range.mp hjmem
      have hdt := ((candF_eq_some o q w j b).mp hFj).1
      have hmem : o.getD j 0 ∈ o := by
        rw [List.getD_eq_getElem o 0 hjlt]
        exact List.getElem_mem hjlt
      exact hall _ hmem hdt

/-- C1 (amended). For every sorted onset sequence whose consecutive onsets are
separated by more than the tolerance window, every non-negative window, and
every monotone query sequence with the hint threaded from 0, each matcher call
returns exactly the brute-force nearest onset within the window, and the
brute reference returns none exactly when no onset lies within the window. -/
theorem matcher_equals_brute_nearest (onset_times qs : List ℚ) (window_s : ℚ)
    (hw : 0 ≤ window_s) (hs : onset_times.Sorted (· ≤ ·))
    (hsp : WellSpaced onset_times window_s)
    (hq : qs.Chain' (· ≤ ·)) :
    (matchRun onset_times window_s 0 qs).map Prod.fst =
      qs.map (fun q => bruteNearest onset_times q window_s) ∧
    ∀ q : ℚ, (bruteNearest onset_times q window_s = none ↔
      ∀ x ∈ onset_times, ¬ |x - q| ≤ window_s) := by
  constructor
  · by_cases hemp : onset_times = []
    · subst hemp
      exact matchRun_empty window_s qs 0
    · cases qs with
      | nil => rfl
      | cons q rest =>
        exact matchRun_brute onset_times window_s hs hw hsp (q :: rest) 0 q
          (List.Chain.cons (le_refl q) hq)
          (fun j hj => absurd hj (by omega))
          (List.length_pos.mpr hemp)
  · intro q
    exact bruteNearest_none_iff onset_times q window_s

theorem matcher_equals_brute_witness :
    (matchRun [0, 10] 1 0 [1 / 2, 49 / 5]).map Prod.fst =
      [(1 : ℚ) / 2, 49 / 5].map (fun q => bruteNearest [0, 10] q 1) ∧
    (bruteNearest [0, 10] (1 / 2) 1 = none ↔
      ∀ x ∈ ([0, 10] : List ℚ), ¬ |x - 1 / 2| ≤ 1) :=
  ⟨(matcher_equals_brute_nearest [0, 10] [1 / 2, 49 / 5] 1 (by norm_num)
      (by decide) (by norm_num [WellSpaced, List.chain'_cons])
      (by norm_num [List.chain'_cons])).1,
   (matcher_equals_brute_nearest [0, 10] [1 / 2, 49 / 5] 1 (by norm_num)
      (by decide) (by norm_num [WellSpaced, List.chain'_cons])
      (by norm_num [List.chain'_cons])).2 (1 / 2)⟩

/-- Onsets 10 ms apart with a 50 ms window: denser than the window, so the
neighbourhood `{i-1, i, i+1, i+2}` around the un-advanced hint misses the
true nearest onset. -/
def onsC1 : List ℚ := [0, 1 / 100, 2 / 100, 3 / 100, 4 / 100, 1 / 20]

/-- C1 counterexample to the unamended claim: the onsets are sorted and the
window non-negative, the hint is threaded from 0, yet the first call returns
onset 1/50 (index 2) while the brute-force nearest within the window is 1/20
(index 5, at distance 0). -/
theorem matcher_not_brute_cex :
    onsC1.Sorted (· ≤ ·) ∧ ((0 : ℚ) ≤ 1 / 20) ∧
    (matchRun onsC1 (1 / 20) 0 [1 / 20]).map Prod.fst = [some (1 / 50)] ∧
    [(1 : ℚ) / 20].map (fun q => bruteNearest onsC1 q (1 / 20)) =
      [some (1 / 20)] ∧
    some ((1 : ℚ) / 50) ≠ some ((1 : ℚ) / 20) :=
  ⟨by decide, by norm_num, by decide, by decide, by decide⟩
